import Mathlib

/-!
# The indexing pipeline of `xsfs.cpp`

A shallow embedding of the worker functions of `src/xsfs.cpp`
(`work_index`, `work_read`, `work_init_indexes`, `work_init_queues`) and of
the collaborators they call (the Dual Queue, the file reader, the tokenizer,
the File Index and the TF-IDF shard of `ouroboroslib`, which are not part of
`src/` and are modelled from the specification).

Each worker is a small-step machine over its local variables and the memory
components of its lane.  The blocking queue operations are the atomic steps;
a step that would block returns `none`.  A lane runs both workers under an
arbitrary schedule.
-/

namespace Xsfs

/-! ## Constants of `src/xsfs.cpp` -/

/-- The constant `#define BLOCK_ADDON_SIZE 4096`. -/
def BLOCK_ADDON_SIZE : Nat := 4096

/-- The constant `#define BLOCK_SIZE 1024`. -/
def BLOCK_SIZE : Nat := 1024

/-- The constant `#define DELIMITERS " \t\n"`. -/
def DELIMITERS : List Char := [' ', '\t', '\n']

/-! ## Data Block -/

/-- Modelled from the spec: the Data Block (`FileDataBlock` of ouroboroslib),
a recyclable buffer with a file identifier and a signed length
(`> 0` valid byte count, `0` end of file, `-1` shutdown sentinel). -/
structure FileDataBlock where
  buffer : List Char
  length : Int
  fileIdx : Int
deriving DecidableEq, Repr

/-! ## Dual Queue -/

/-- Modelled from the spec: the Dual Queue (`DualQueue<FileDataBlock*>` of
ouroboroslib), two bounded FIFO pools of blocks, the empty pool and the full
pool, each bounded by `queue_size`. -/
structure DualQueue where
  queue_size : Nat
  empty : List FileDataBlock
  full : List FileDataBlock
deriving DecidableEq, Repr

namespace DualQueue

/-- Modelled from the spec: `pop_full()` removes and returns the oldest block
of the full pool; it blocks (`none`) while the full pool has no block. -/
def pop_full (q : DualQueue) : Option (FileDataBlock × DualQueue) :=
  match q.full with
  | [] => none
  | b :: rest => some (b, { q with full := rest })

/-- Modelled from the spec: `push_full(block)` inserts a block into the full
pool; it blocks (`none`) while the full pool is at capacity. -/
def push_full (q : DualQueue) (b : FileDataBlock) : Option DualQueue :=
  if q.full.length < q.queue_size then some { q with full := q.full ++ [b] } else none

/-- Modelled from the spec: `pop_empty()` removes and returns the oldest block
of the empty pool; it blocks (`none`) while the empty pool has no block. -/
def pop_empty (q : DualQueue) : Option (FileDataBlock × DualQueue) :=
  match q.empty with
  | [] => none
  | b :: rest => some (b, { q with empty := rest })

/-- Modelled from the spec: `push_empty(block)` inserts a block into the empty
pool; like every queue operation it may block (`none`), here while the empty
pool is at capacity. -/
def push_empty (q : DualQueue) (b : FileDataBlock) : Option DualQueue :=
  if q.empty.length < q.queue_size then some { q with empty := q.empty ++ [b] } else none

end DualQueue

/-- Modelled from the spec: `FileDualQueueMemoryComponent(queue_size, capacity)`
of ouroboroslib allocates `queue_size` blocks of the given buffer capacity,
all of them in the empty pool and none in the full pool. -/
def FileDualQueueMemoryComponent (queue_size capacity : Nat) : DualQueue :=
  { queue_size := queue_size
    empty := List.replicate queue_size
      { buffer := List.replicate capacity (Char.ofNat 0), length := 0, fileIdx := 0 }
    full := [] }

/-! ## File reader -/

/-- Modelled from the spec: the file reader (`WaveFileReaderDriver` of
ouroboroslib).  `can_open` tells whether `open()` succeeds, `chunks` are the
byte chunks that the successive `readNextBlock` calls deliver; once they are
used up every further read reports length `0`. -/
structure WaveFileReaderDriver where
  can_open : Bool
  chunks : List (List Char)
deriving DecidableEq, Repr

/-- Modelled from the spec: `readNextBlock(block)` fills `block.buffer` and
`block.length` with the next chunk; `length == 0` signals end of file. -/
def WaveFileReaderDriver.readNextBlock (r : WaveFileReaderDriver) (b : FileDataBlock) :
    WaveFileReaderDriver × FileDataBlock :=
  match r.chunks with
  | [] => (r, { b with length := 0 })
  | c :: rest =>
    ({ r with chunks := rest },
     { b with buffer := c ++ b.buffer.drop c.length, length := (c.length : Int) })

/-! ## File Index -/

/-- Modelled from the spec: the File Index (`BaseFileIndex` of ouroboroslib),
an append-only registry of paths. -/
structure BaseFileIndex where
  paths : List String
deriving DecidableEq, Repr

/-- Modelled from the spec: `insert(path) -> fileIdx`; each call allocates a
new, increasing identifier. -/
def BaseFileIndex.insert (ix : BaseFileIndex) (path : String) : Int × BaseFileIndex :=
  ((ix.paths.length : Int), { paths := ix.paths ++ [path] })

/-! ## TF-IDF shard -/

/-- Modelled from the spec: the TF-IDF shard (`BaseTFIDFIndex` of
ouroboroslib), kept as the sequence of `(term, fileIdx)` insertions from which
the frequencies are accumulated. -/
structure BaseTFIDFIndex where
  entries : List (List Char × Int)
deriving DecidableEq, Repr

/-- Modelled from the spec: `insert(term, fileIdx)` accumulates one occurrence
of the pair. -/
def BaseTFIDFIndex.insert (ix : BaseTFIDFIndex) (term : List Char) (fileIdx : Int) :
    BaseTFIDFIndex :=
  { entries := ix.entries ++ [(term, fileIdx)] }

/-- The distinct terms of a shard, in order of first insertion. -/
def BaseTFIDFIndex.terms (ix : BaseTFIDFIndex) : List (List Char) :=
  (ix.entries.map Prod.fst).dedup

/-- Modelled from the spec: `getNumTerms()` is the current distinct-term count
of the shard. -/
def BaseTFIDFIndex.getNumTerms (ix : BaseTFIDFIndex) : Nat :=
  ix.terms.length

/-! ## Tokenizer -/

/-- Modelled from the spec: the scratch block of the tokenizer (`CTokBLock` of
ouroboroslib): the token array and the number of valid tokens in it. -/
structure CTokBLock where
  tokens : List (List Char)
  numTokens : Nat
deriving DecidableEq, Repr

/-- Modelled from the spec: splitting on a fixed delimiter set into
delimiter-separated tokens, that is the maximal runs of non-delimiter
characters, in order.  `cur` is the run being read. -/
def splitTokens (delims : List Char) : List Char → List Char → List (List Char)
  | [], cur => if cur = [] then [] else [cur]
  | c :: cs, cur =>
    if c ∈ delims then
      (if cur = [] then splitTokens delims cs [] else cur :: splitTokens delims cs [])
    else splitTokens delims cs (cur ++ [c])

/-- Modelled from the spec: `getTokens(block, scratch)` of the
`BranchLessTokenizer` splits `block.buffer[0:block.length]` on the delimiter
set into `scratch.tokens[0:numTokens]`. -/
def getTokens (delims : List Char) (b : FileDataBlock) (tokBlock : CTokBLock) : CTokBLock :=
  let toks := splitTokens delims (b.buffer.take b.length.toNat) []
  { tokens := toks ++ tokBlock.tokens.drop toks.length, numTokens := toks.length }

/-! ## The workers of one lane -/

/-- Program points of `work_read`: before `reader->open()`, at
`queue->pop_empty()`, at `queue->push_full(dataBlock)`, and after the return. -/
inductive ReadPC
  | start
  | pop
  | push
  | returned
deriving DecidableEq, Repr

/-- Program points of `work_index`: at `queue->pop_full()`, at
`queue->push_empty(dataBlock)`, after the loop (before the counter update),
and after the return. -/
inductive IndexPC
  | pop
  | push
  | finish
  | returned
deriving DecidableEq, Repr

/-- One lane: the memory components that `manager->getMemoryComponent` hands
to the two workers, the shared counter, and the local variables of the
`work_read` and of the `work_index` running on the lane.  The fields
`pushed`, `popped`, `tokenized` and `recycled` are history variables: the
blocks given to `push_full`, returned by `pop_full`, given to `getTokens` and
given to `push_empty`, in order. -/
structure Lane where
  queue : DualQueue
  fileIndex : BaseFileIndex
  index : BaseTFIDFIndex
  total_num_tokens : Int
  rpc : ReadPC
  filename : String
  reader : WaveFileReaderDriver
  fileIdx : Int
  rblock : FileDataBlock
  rlength : Int
  pushed : List FileDataBlock
  ipc : IndexPC
  tokBlock : CTokBLock
  iblock : FileDataBlock
  ilength : Int
  popped : List FileDataBlock
  tokenized : List FileDataBlock
  recycled : List FileDataBlock
deriving DecidableEq, Repr

/-- The loop `for (long i = 0; i < tokBlock->numTokens; i++)
index->insert(tokBlock->tokens[i], dataBlock->fileIdx);` with `n` iterations
left and loop variable `i`. -/
def insertTokens (tokBlock : CTokBLock) (fileIdx : Int) :
    Nat → Nat → BaseTFIDFIndex → BaseTFIDFIndex
  | 0, _, index => index
  | n + 1, i, index =>
    insertTokens tokBlock fileIdx n (i + 1) (index.insert (tokBlock.tokens.getD i []) fileIdx)

/-- One atomic step of `work_index` (lines 104-129): from `pop`, take a block
from the full pool and, if its length is positive, tokenize it and insert its
tokens; from `push`, give the block back to the empty pool and leave the loop
if the length was `-1`; from `finish`, add the term count of the shard to the
shared counter (a `long`; a term count is bounded by the memory of the
process, so the sum is taken without wrap-around).  `none` when the queue
operation blocks or the function has returned. -/
def work_index_step (l : Lane) : Option Lane :=
  match l.ipc with
  | .pop =>
    match l.queue.pop_full with
    | none => none
    | some (dataBlock, queue) =>
      if 0 < dataBlock.length then
        let tokBlock := getTokens DELIMITERS dataBlock l.tokBlock
        some { l with
          queue := queue, iblock := dataBlock, ilength := dataBlock.length,
          tokBlock := tokBlock,
          index := insertTokens tokBlock dataBlock.fileIdx tokBlock.numTokens 0 l.index,
          popped := l.popped ++ [dataBlock], tokenized := l.tokenized ++ [dataBlock],
          ipc := .push }
      else
        some { l with
          queue := queue, iblock := dataBlock, ilength := dataBlock.length,
          popped := l.popped ++ [dataBlock], ipc := .push }
  | .push =>
    match l.queue.push_empty l.iblock with
    | none => none
    | some queue =>
      some { l with
        queue := queue, recycled := l.recycled ++ [l.iblock],
        ipc := if l.ilength = -1 then .finish else .pop }
  | .finish =>
    some { l with
      total_num_tokens := l.total_num_tokens + (l.index.getNumTerms : Int), ipc := .returned }
  | .returned => none

/-- One atomic step of `work_read` (lines 160-188): from `start`, open the
file and register it in the File Index, or return if the open fails; from
`pop`, take a block from the empty pool, read the next chunk into it and stamp
it with the file identifier; from `push`, give it to the full pool and leave
the loop if the length was `0`.  `none` when the queue operation blocks or the
function has returned. -/
def work_read_step (l : Lane) : Option Lane :=
  match l.rpc with
  | .start =>
    if l.reader.can_open then
      some { l with
        fileIdx := (l.fileIndex.insert l.filename).1,
        fileIndex := (l.fileIndex.insert l.filename).2, rpc := .pop }
    else some { l with rpc := .returned }
  | .pop =>
    match l.queue.pop_empty with
    | none => none
    | some (dataBlock, queue) =>
      let dataBlock' := { (l.reader.readNextBlock dataBlock).2 with fileIdx := l.fileIdx }
      some { l with
        queue := queue, reader := (l.reader.readNextBlock dataBlock).1,
        rblock := dataBlock', rlength := dataBlock'.length, rpc := .push }
  | .push =>
    match l.queue.push_full l.rblock with
    | none => none
    | some queue =>
      some { l with
        queue := queue, pushed := l.pushed ++ [l.rblock],
        rpc := if l.rlength = 0 then .returned else .pop }
  | .returned => none

/-- The two workers of a lane. -/
inductive Worker
  | read
  | index
deriving DecidableEq, Repr

/-- The lane after the given worker is scheduled once; a worker that is
blocked or has returned leaves the lane as it is. -/
def Lane.step (l : Lane) : Worker → Lane
  | .read => (work_read_step l).getD l
  | .index => (work_index_step l).getD l

/-- The lane after the workers are scheduled in the given order. -/
def Lane.run (l : Lane) (sched : List Worker) : Lane :=
  sched.foldl Lane.step l

/-- The function `work_read` running alone on its lane for `fuel` steps. -/
def work_read (fuel : Nat) (l : Lane) : Lane :=
  l.run (List.replicate fuel Worker.read)

/-- The function `work_index` running alone on its lane for `fuel` steps. -/
def work_index (fuel : Nat) (l : Lane) : Lane :=
  l.run (List.replicate fuel Worker.index)

/-- The scratch block that `work_index` allocates (lines 85-89): a token array
of `block_size / 2 + 1` entries, no valid token yet. -/
def newTokBlock (block_size : Nat) : CTokBLock :=
  { tokens := List.replicate (block_size / 2 + 1) [], numTokens := 0 }

/-- The value of an `int` expression whose mathematical result is `x`: `x`
wrapped to 32 bits in two's complement. -/
def toInt32 (x : Int) : Int :=
  (x + 2 ^ 31) % 2 ^ 32 - 2 ^ 31

/-- The block capacity that `work_init_queues` passes to the queue component
(line 218): `block_size + BLOCK_ADDON_SIZE`, computed in `int`. -/
def blockCapacity (block_size : Nat) : Int :=
  toInt32 ((block_size : Int) + (BLOCK_ADDON_SIZE : Int))

/-- A lane right after `work_init_queues(manager, queue_id, queue_size,
block_size)` (lines 209-225) and before its workers have taken a step: a
Dual Queue of `queue_size` blocks of capacity `block_size + BLOCK_ADDON_SIZE`
(an `int` sum; a negative capacity gives blocks without storage), an empty
File Index, the given shard, a `work_read` about to open `filename` and a
`work_index` about to pop its first block. -/
def Lane.init (queue_size block_size : Nat) (index : BaseTFIDFIndex) (filename : String)
    (reader : WaveFileReaderDriver) : Lane :=
  let blank : FileDataBlock := { buffer := [], length := 0, fileIdx := 0 }
  { queue := FileDualQueueMemoryComponent queue_size (blockCapacity block_size).toNat
    fileIndex := { paths := [] }
    index := index
    total_num_tokens := 0
    rpc := .start
    filename := filename
    reader := reader
    fileIdx := 0
    rblock := blank
    rlength := 0
    pushed := []
    ipc := .pop
    tokBlock := newTokBlock block_size
    iblock := blank
    ilength := 0
    popped := []
    tokenized := []
    recycled := [] }

/-- Number of blocks a worker currently holds between its pop and its push. -/
def Lane.held (l : Lane) : Nat :=
  (if l.rpc = .push then 1 else 0) + (if l.ipc = .push then 1 else 0)

/-- The blocks in the two pools and in the hands of the workers. -/
def Lane.blocks (l : Lane) : Nat :=
  l.queue.empty.length + l.queue.full.length + l.held

/-- What a consumer sees of a block: its valid bytes
`buffer[0:length]`, its length and its file identifier. -/
def FileDataBlock.content (b : FileDataBlock) : List Char × Int × Int :=
  (b.buffer.take b.length.toNat, b.length, b.fileIdx)

/-- The insertions one block is to contribute to the shard: the tokens of its
valid bytes, each paired with the file identifier of the block, when its
length is positive, and nothing otherwise. -/
def blockEntries (b : FileDataBlock) : List (List Char × Int) :=
  if 0 < b.length then
    (splitTokens DELIMITERS (b.buffer.take b.length.toNat) []).map (fun t => (t, b.fileIdx))
  else []

/-- The same insertions, from the content of the block alone. -/
def contentEntries (c : List Char × Int × Int) : List (List Char × Int) :=
  if 0 < c.2.1 then (splitTokens DELIMITERS c.1 []).map (fun t => (t, c.2.2)) else []

/-- The contents a file is to deliver to the full pool, given the chunks its
reader yields: the data chunks before the first zero-length read, then one
terminal block of length `0`, all with the same file identifier. -/
def fileBlocks (fileIdx : Int) : List (List Char) → List (List Char × Int × Int)
  | [] => [([], 0, fileIdx)]
  | c :: cs =>
    if c = [] then [([], 0, fileIdx)]
    else (c, (c.length : Int), fileIdx) :: fileBlocks fileIdx cs

/-- Accounting of `work_index` since the lane `l₀`, in which it was about to
pop: the blocks `d` it has popped since, what it has tokenized, what the shard
has received, what it has recycled, and where the sentinel can be. -/
def IndexInv (l₀ l : Lane) : Prop :=
  ∃ d : List FileDataBlock,
    l.popped = l₀.popped ++ d ∧
    l.tokenized = l₀.tokenized ++ d.filter (fun b => decide (0 < b.length)) ∧
    l.index.entries = l₀.index.entries ++ d.flatMap blockEntries ∧
    match l.ipc with
    | .pop => l.recycled = l₀.recycled ++ d ∧ ∀ b ∈ d, b.length ≠ -1
    | .push =>
      ∃ d', d = d' ++ [l.iblock] ∧ l.recycled = l₀.recycled ++ d' ∧
        l.ilength = l.iblock.length ∧ ∀ b ∈ d', b.length ≠ -1
    | _ =>
      l.recycled = l₀.recycled ++ d ∧
        ∃ d' s, d = d' ++ [s] ∧ s.length = -1 ∧ ∀ b ∈ d', b.length ≠ -1

/-- Accounting of `work_read` since the lane `l₀`, in which it was about to
open its file: the file identifier it obtained, the blocks `d` it has pushed
since, and how their contents and the chunks still to be read make up the
contents the file is to deliver. -/
def ReadInv (l₀ l : Lane) : Prop :=
  match l.rpc with
  | .start =>
    l.pushed = l₀.pushed ∧ l.fileIndex = l₀.fileIndex ∧ l.reader = l₀.reader ∧
      l.filename = l₀.filename
  | .pop =>
    l₀.reader.can_open = true ∧ l.fileIdx = (l₀.fileIndex.insert l₀.filename).1 ∧
      l.fileIndex = (l₀.fileIndex.insert l₀.filename).2 ∧
      ∃ d, l.pushed = l₀.pushed ++ d ∧
        d.map FileDataBlock.content ++ fileBlocks l.fileIdx l.reader.chunks
          = fileBlocks l.fileIdx l₀.reader.chunks
  | .push =>
    l₀.reader.can_open = true ∧ l.fileIdx = (l₀.fileIndex.insert l₀.filename).1 ∧
      l.fileIndex = (l₀.fileIndex.insert l₀.filename).2 ∧
      l.rlength = l.rblock.length ∧
      ∃ d, l.pushed = l₀.pushed ++ d ∧
        (d ++ [l.rblock]).map FileDataBlock.content
            ++ (if l.rlength = 0 then [] else fileBlocks l.fileIdx l.reader.chunks)
          = fileBlocks l.fileIdx l₀.reader.chunks
  | .returned =>
    if l₀.reader.can_open = true then
      l.fileIndex = (l₀.fileIndex.insert l₀.filename).2 ∧
        ∃ d, l.pushed = l₀.pushed ++ d ∧
          d.map FileDataBlock.content
            = fileBlocks (l₀.fileIndex.insert l₀.filename).1 l₀.reader.chunks
    else l.pushed = l₀.pushed ∧ l.fileIndex = l₀.fileIndex

/-! ## The example lane: two blocks in the queue, a file of twenty bytes -/

/-- A reader delivering the 20-byte file as `"AAAAAAAA"`, `"BBBBBBBB"`,
`"CCCC"` and then a read of length `0`. -/
def reader20 : WaveFileReaderDriver :=
  { can_open := true, chunks := ["AAAAAAAA".toList, "BBBBBBBB".toList, "CCCC".toList] }

/-- The lane with `queue_size = 2` and `block_size = 8` before its workers
start on the file. -/
def lane20 : Lane :=
  Lane.init 2 8 { entries := [] } "f" reader20

/-- A complete run on the example lane: the reader opens the file, then four
times the reader fills and pushes a block and the indexer pops and recycles
it. -/
def sched20 : List Worker :=
  [.read, .read, .read, .index, .index, .read, .read, .index, .index,
   .read, .read, .index, .index, .read, .read, .index, .index]

/-- A lane whose full pool already holds the given blocks and whose
`work_index` is about to pop. -/
def laneWithFull (blocks : List FileDataBlock) : Lane :=
  { Lane.init 4 8 { entries := [] } "f" { can_open := true, chunks := [] } with
    queue := { queue_size := 4, empty := [], full := blocks } }

/-! ## Several lanes sharing the term counter -/

/-- The lanes of the process and the counter `total_num_tokens` that all
`work_index` workers share (an `atomic<long>`, passed by pointer). -/
structure Pipeline where
  lanes : List Lane
  total_num_tokens : Int

/-- One atomic step of worker `w` of lane `i`, acting on the shared counter. -/
def Pipeline.step (p : Pipeline) (iw : Nat × Worker) : Pipeline :=
  match p.lanes[iw.1]? with
  | none => p
  | some l =>
    let l' := Lane.step { l with total_num_tokens := p.total_num_tokens } iw.2
    { lanes := p.lanes.set iw.1 l', total_num_tokens := l'.total_num_tokens }

/-- The pipeline after the workers are scheduled in the given order. -/
def Pipeline.run (p : Pipeline) (sched : List (Nat × Worker)) : Pipeline :=
  sched.foldl Pipeline.step p

/-- What a lane has added to the shared counter: the term count of its shard
once its `work_index` has returned, nothing before. -/
def Lane.reported (l : Lane) : Int :=
  if l.ipc = .returned then (l.index.getNumTerms : Int) else 0

/-! ## Sizing of the shard's hash table -/

/-- Trial division, for the model of `get_next_prime_number`: `2 ≤ n` and `n`
has no divisor `d` with `2 ≤ d < n`. -/
def is_prime (n : Nat) : Bool :=
  decide (2 ≤ n) && (List.range (n - 2)).all (fun d => n % (d + 2) != 0)

/-- The search of the model of `get_next_prime_number`: the first prime among
`n, n + 1, ...`, looking at `fuel` candidates. -/
def nextPrimeFrom : Nat → Nat → Nat
  | 0, n => n
  | fuel + 1, n => if is_prime n then n else nextPrimeFrom fuel (n + 1)

/-- Modelled from the spec: `get_next_prime_number(n)` of ouroboroslib is the
next prime at or above `n`.  A prime lies between `n` and `2 n + 2`, so
`n + 3` candidates are enough. -/
def get_next_prime_number (n : Nat) : Nat :=
  nextPrimeFrom (n + 3) n

/-- The conversion of a `long` to `unsigned long` that the division
`initial_capacity / bucketSize` (a `long` by a `size_t`) performs. -/
def toUnsignedLong (x : Int) : Nat :=
  (x % 2 ^ 64).toNat

/-- Modelled from the spec: the shard component
(`TFIDFIndexMemoryComponent` of ouroboroslib) as `work_init_indexes` creates
it: the page size and the bucket count of its hash table, and an empty shard. -/
structure TFIDFIndexMemoryComponent where
  page_size : Int
  numBuckets : Nat
  index : BaseTFIDFIndex

/-- The component built by `work_init_indexes` (lines 190-207), with
`numBuckets = get_next_prime_number(initial_capacity / bucketSize)`;
`bucketSize` is the value of `getBucketSizeInBytes()`. -/
def work_init_indexes (page_size initial_capacity : Int) (bucketSize : Nat) :
    TFIDFIndexMemoryComponent :=
  { page_size := page_size
    numBuckets := get_next_prime_number (toUnsignedLong initial_capacity / bucketSize)
    index := { entries := [] } }

/-! # Theorems -/

/-! ## Facts about the queue operations -/

theorem DualQueue.pop_full_some {q q' : DualQueue} {b : FileDataBlock}
    (h : q.pop_full = some (b, q')) :
    q.full = b :: q'.full ∧ q'.empty = q.empty ∧ q'.queue_size = q.queue_size := by
  unfold DualQueue.pop_full at h
  split at h
  · simp at h
  · next b0 rest hfull =>
    simp only [Option.some.injEq, Prod.mk.injEq] at h
    obtain ⟨rfl, rfl⟩ := h
    simp [hfull]

theorem DualQueue.pop_empty_some {q q' : DualQueue} {b : FileDataBlock}
    (h : q.pop_empty = some (b, q')) :
    q.empty = b :: q'.empty ∧ q'.full = q.full ∧ q'.queue_size = q.queue_size := by
  unfold DualQueue.pop_empty at h
  split at h
  · simp at h
  · next b0 rest hempty =>
    simp only [Option.some.injEq, Prod.mk.injEq] at h
    obtain ⟨rfl, rfl⟩ := h
    simp [hempty]

theorem DualQueue.push_full_some {q q' : DualQueue} {b : FileDataBlock}
    (h : q.push_full b = some q') :
    q'.full = q.full ++ [b] ∧ q'.empty = q.empty ∧ q'.queue_size = q.queue_size ∧
      q.full.length < q.queue_size := by
  unfold DualQueue.push_full at h
  split at h
  · next hlt =>
    simp only [Option.some.injEq] at h
    subst h
    simp [hlt]
  · simp at h

theorem DualQueue.push_empty_some {q q' : DualQueue} {b : FileDataBlock}
    (h : q.push_empty b = some q') :
    q'.empty = q.empty ++ [b] ∧ q'.full = q.full ∧ q'.queue_size = q.queue_size ∧
      q.empty.length < q.queue_size := by
  unfold DualQueue.push_empty at h
  split at h
  · next hlt =>
    simp only [Option.some.injEq] at h
    subst h
    simp [hlt]
  · simp at h

/-! ## Block conservation -/

theorem work_index_step_blocks {l l' : Lane} (h : work_index_step l = some l') :
    l'.blocks = l.blocks ∧ l'.queue.queue_size = l.queue.queue_size := by
  unfold work_index_step at h
  split at h
  · next hpc =>
    split at h
    · simp at h
    · next b q' hpop =>
      obtain ⟨h1, h2, h3⟩ := DualQueue.pop_full_some hpop
      split at h <;>
      · simp only [Option.some.injEq] at h
        subst h
        simp [Lane.blocks, Lane.held, hpc, h1, h2, h3]
        omega
  · next hpc =>
    split at h
    · simp at h
    · next q' hpush =>
      obtain ⟨h1, h2, h3, _⟩ := DualQueue.push_empty_some hpush
      simp only [Option.some.injEq] at h
      subst h
      by_cases hl : l.ilength = -1 <;>
      · simp [Lane.blocks, Lane.held, hpc, h1, h2, h3, hl]
        omega
  · next hpc =>
    simp only [Option.some.injEq] at h
    subst h
    simp [Lane.blocks, Lane.held, hpc]
  · simp at h

theorem work_read_step_blocks {l l' : Lane} (h : work_read_step l = some l') :
    l'.blocks = l.blocks ∧ l'.queue.queue_size = l.queue.queue_size := by
  unfold work_read_step at h
  split at h
  · next hpc =>
    split at h <;>
    · simp only [Option.some.injEq] at h
      subst h
      simp [Lane.blocks, Lane.held, hpc]
  · next hpc =>
    split at h
    · simp at h
    · next b q' hpop =>
      obtain ⟨h1, h2, h3⟩ := DualQueue.pop_empty_some hpop
      simp only [Option.some.injEq] at h
      subst h
      simp [Lane.blocks, Lane.held, hpc, h1, h2, h3]
      omega
  · next hpc =>
    split at h
    · simp at h
    · next q' hpush =>
      obtain ⟨h1, h2, h3, _⟩ := DualQueue.push_full_some hpush
      simp only [Option.some.injEq] at h
      subst h
      by_cases hl : l.rlength = 0 <;>
      · simp [Lane.blocks, Lane.held, hpc, h1, h2, h3, hl]
        omega
  · simp at h

theorem Lane.step_blocks (l : Lane) (w : Worker) :
    (l.step w).blocks = l.blocks ∧ (l.step w).queue.queue_size = l.queue.queue_size := by
  cases w
  · unfold Lane.step
    cases h : work_read_step l with
    | none => simp
    | some l' => simpa using work_read_step_blocks h
  · unfold Lane.step
    cases h : work_index_step l with
    | none => simp
    | some l' => simpa using work_index_step_blocks h

theorem Lane.run_blocks (l : Lane) (sched : List Worker) :
    (l.run sched).blocks = l.blocks ∧ (l.run sched).queue.queue_size = l.queue.queue_size := by
  induction sched generalizing l with
  | nil => simp [Lane.run]
  | cons w ws ih =>
    have h1 := Lane.step_blocks l w
    have h2 := ih (l.step w)
    simp only [Lane.run, List.foldl_cons] at h2 ⊢
    exact ⟨h2.1.trans h1.1, h2.2.trans h1.2⟩

/-- C1 (as amended): in a lane whose Dual Queue was initialised with
`queue_size = Q` and whose workers hold no block yet, after any sequence of
worker steps the blocks in the empty pool, in the full pool and in the hands
of the workers (one per worker between its pop and its push) are exactly `Q`;
so the two pools hold exactly `Q` blocks whenever no worker holds one, and
never more than `Q`. -/
theorem C1_pools_and_held_blocks (Q capacity : Nat) (l : Lane) (sched : List Worker)
    (hq : l.queue = FileDualQueueMemoryComponent Q capacity)
    (hr : l.rpc ≠ .push) (hi : l.ipc ≠ .push) :
    (l.run sched).queue.empty.length + (l.run sched).queue.full.length
        + (l.run sched).held = Q ∧
      ((l.run sched).held = 0 →
        (l.run sched).queue.empty.length + (l.run sched).queue.full.length = Q) ∧
      (l.run sched).queue.empty.length + (l.run sched).queue.full.length ≤ Q ∧
      (l.run sched).queue.queue_size = Q := by
  have h := Lane.run_blocks l sched
  have h0 : l.blocks = Q := by
    simp [Lane.blocks, Lane.held, hq, hr, hi, FileDualQueueMemoryComponent]
  have hs : l.queue.queue_size = Q := by simp [hq, FileDualQueueMemoryComponent]
  rw [h0, hs] at h
  obtain ⟨h1, h2⟩ := h
  unfold Lane.blocks at h1
  refine ⟨h1, ?_, ?_, h2⟩
  · intro hz
    omega
  · omega

/-- Witness of C1: a fresh lane with two blocks, after the reader opened the
file, popped a block and pushed it. -/
theorem C1_pools_and_held_blocks_witness :
    ((Lane.init 2 8 { entries := [] } "f" { can_open := true, chunks := [] }).run
        [Worker.read, Worker.read, Worker.read]).queue.empty.length
      + ((Lane.init 2 8 { entries := [] } "f" { can_open := true, chunks := [] }).run
        [Worker.read, Worker.read, Worker.read]).queue.full.length
      + ((Lane.init 2 8 { entries := [] } "f" { can_open := true, chunks := [] }).run
        [Worker.read, Worker.read, Worker.read]).held = 2 :=
  (C1_pools_and_held_blocks 2 (8 + BLOCK_ADDON_SIZE)
    (Lane.init 2 8 { entries := [] } "f" { can_open := true, chunks := [] })
    [Worker.read, Worker.read, Worker.read] rfl (by decide) (by decide)).1

/-- Counterexample to C1 as stated: with `queue_size = 2`, once `work_read`
has opened its file and popped a block from the empty pool (and has not yet
pushed it), the two pools together hold one block, not two. -/
theorem C1_counterexample :
    ((Lane.init 2 8 { entries := [] } "f" { can_open := true, chunks := [] }).run
        [Worker.read, Worker.read]).queue.empty.length
      + ((Lane.init 2 8 { entries := [] } "f" { can_open := true, chunks := [] }).run
        [Worker.read, Worker.read]).queue.full.length ≠ 2 := by
  decide

/-! ## What each worker leaves untouched -/

theorem work_read_step_frame {l l' : Lane} (h : work_read_step l = some l') :
    l'.index = l.index ∧ l'.total_num_tokens = l.total_num_tokens ∧ l'.ipc = l.ipc ∧
      l'.tokBlock = l.tokBlock ∧ l'.iblock = l.iblock ∧ l'.ilength = l.ilength ∧
      l'.popped = l.popped ∧ l'.tokenized = l.tokenized ∧ l'.recycled = l.recycled := by
  unfold work_read_step at h
  split at h
  · split at h <;>
    · simp only [Option.some.injEq] at h
      subst h
      simp
  · split at h
    · simp at h
    · simp only [Option.some.injEq] at h
      subst h
      simp
  · split at h
    · simp at h
    · simp only [Option.some.injEq] at h
      subst h
      simp
  · simp at h

theorem work_index_step_frame {l l' : Lane} (h : work_index_step l = some l') :
    l'.fileIndex = l.fileIndex ∧ l'.rpc = l.rpc ∧ l'.filename = l.filename ∧
      l'.reader = l.reader ∧ l'.fileIdx = l.fileIdx ∧ l'.rblock = l.rblock ∧
      l'.rlength = l.rlength ∧ l'.pushed = l.pushed := by
  unfold work_index_step at h
  split at h
  · split at h
    · simp at h
    · split at h <;>
      · simp only [Option.some.injEq] at h
        subst h
        simp
  · split at h
    · simp at h
    · simp only [Option.some.injEq] at h
      subst h
      simp
  · simp only [Option.some.injEq] at h
    subst h
    simp
  · simp at h

/-! ## First in, first out -/

theorem work_read_step_fifo {l l' : Lane} (h : work_read_step l = some l')
    (base : List FileDataBlock) (hinv : l.popped ++ l.queue.full = base ++ l.pushed) :
    l'.popped ++ l'.queue.full = base ++ l'.pushed := by
  unfold work_read_step at h
  split at h
  · split at h <;>
    · simp only [Option.some.injEq] at h
      subst h
      simpa using hinv
  · split at h
    · simp at h
    · next b q' hpop =>
      obtain ⟨_, h2, _⟩ := DualQueue.pop_empty_some hpop
      simp only [Option.some.injEq] at h
      subst h
      simpa [h2] using hinv
  · split at h
    · simp at h
    · next q' hpush =>
      obtain ⟨h1, _, _, _⟩ := DualQueue.push_full_some hpush
      simp only [Option.some.injEq] at h
      subst h
      simp only [h1, ← List.append_assoc, hinv]
  · simp at h

theorem work_index_step_fifo {l l' : Lane} (h : work_index_step l = some l')
    (base : List FileDataBlock) (hinv : l.popped ++ l.queue.full = base ++ l.pushed) :
    l'.popped ++ l'.queue.full = base ++ l'.pushed := by
  unfold work_index_step at h
  split at h
  · split at h
    · simp at h
    · next b q' hpop =>
      obtain ⟨h1, _, _⟩ := DualQueue.pop_full_some hpop
      rw [h1] at hinv
      split at h <;>
      · simp only [Option.some.injEq] at h
        subst h
        simpa using hinv
  · split at h
    · simp at h
    · next q' hpush =>
      obtain ⟨_, h2, _, _⟩ := DualQueue.push_empty_some hpush
      simp only [Option.some.injEq] at h
      subst h
      simpa [h2] using hinv
  · simp only [Option.some.injEq] at h
    subst h
    simpa using hinv
  · simp at h

theorem Lane.run_fifo (l : Lane) (sched : List Worker) (base : List FileDataBlock)
    (hinv : l.popped ++ l.queue.full = base ++ l.pushed) :
    (l.run sched).popped ++ (l.run sched).queue.full = base ++ (l.run sched).pushed := by
  induction sched generalizing l with
  | nil => simpa [Lane.run] using hinv
  | cons w ws ih =>
    simp only [Lane.run, List.foldl_cons]
    apply ih
    cases w
    · unfold Lane.step
      cases h : work_read_step l with
      | none => simpa using hinv
      | some l' => simpa using work_read_step_fifo h base hinv
    · unfold Lane.step
      cases h : work_index_step l with
      | none => simpa using hinv
      | some l' => simpa using work_index_step_fifo h base hinv

/-- C6: in a lane whose full pool and histories start empty, under every
schedule of the two workers the blocks that `work_index` has obtained from
`pop_full`, followed by the blocks still waiting in the full pool, are exactly
the blocks that `work_read` has given to `push_full`, in the same order; so
the popped sequence is an initial segment of the pushed sequence, block for
block with the same bytes, length and file identifier. -/
theorem C6_popped_is_initial_segment_of_pushed (l : Lane) (sched : List Worker)
    (hfull : l.queue.full = []) (hpopped : l.popped = []) (hpushed : l.pushed = []) :
    (l.run sched).popped ++ (l.run sched).queue.full = (l.run sched).pushed ∧
      (l.run sched).popped <+: (l.run sched).pushed ∧
      ∀ i (hi : i < (l.run sched).popped.length),
        ∃ hj : i < (l.run sched).pushed.length,
          (l.run sched).popped.get ⟨i, hi⟩ = (l.run sched).pushed.get ⟨i, hj⟩ := by
  have h := Lane.run_fifo l sched [] (by simp [hfull, hpopped, hpushed])
  simp only [List.nil_append] at h
  have hp : (l.run sched).popped <+: (l.run sched).pushed := ⟨_, h⟩
  refine ⟨h, hp, ?_⟩
  intro i hi
  have hj : i < (l.run sched).pushed.length := lt_of_lt_of_le hi hp.length_le
  refine ⟨hj, ?_⟩
  have := List.IsPrefix.getElem hp hi
  simpa using this

/-! ## What `work_index` does with the blocks it pops -/

theorem insertTokens_entries (tokBlock : CTokBLock) (fileIdx : Int) (n i : Nat)
    (index : BaseTFIDFIndex) :
    (insertTokens tokBlock fileIdx n i index).entries =
      index.entries ++ (List.range' i n).map (fun j => (tokBlock.tokens.getD j [], fileIdx)) := by
  induction n generalizing i index with
  | zero => simp [insertTokens]
  | succ n ih =>
    simp [insertTokens, ih, BaseTFIDFIndex.insert, List.range'_succ]

theorem map_getD_append (toks rest : List (List Char)) (pre : List (List Char)) :
    (List.range' pre.length toks.length).map (fun j => (pre ++ toks ++ rest).getD j []) = toks := by
  induction toks generalizing pre with
  | nil => simp
  | cons t ts ih =>
    have h := ih (pre ++ [t])
    simp only [List.length_append, List.length_singleton, List.append_assoc,
      List.singleton_append] at h
    simp only [List.length_cons, List.range'_succ, List.map_cons, List.append_assoc]
    rw [h]
    simp [List.getD_eq_getElem?_getD, List.getElem_append_right]

theorem insertTokens_getTokens (b : FileDataBlock) (tokBlock : CTokBLock)
    (index : BaseTFIDFIndex) (hpos : 0 < b.length) :
    (insertTokens (getTokens DELIMITERS b tokBlock) b.fileIdx
        (getTokens DELIMITERS b tokBlock).numTokens 0 index).entries =
      index.entries ++ blockEntries b := by
  rw [insertTokens_entries]
  have h := map_getD_append (splitTokens DELIMITERS (b.buffer.take b.length.toNat) [])
    (tokBlock.tokens.drop (splitTokens DELIMITERS (b.buffer.take b.length.toNat) []).length) []
  simp only [List.length_nil, List.nil_append] at h
  simp only [getTokens, blockEntries, hpos, if_true]
  congr 1
  conv_rhs => rw [← h]
  simp [List.map_map, Function.comp_def]

theorem indexInv_init (l₀ : Lane) (h : l₀.ipc = .pop) : IndexInv l₀ l₀ := by
  refine ⟨[], ?_, ?_, ?_, ?_⟩ <;> simp [h]

theorem work_read_step_IndexInv {l₀ l l' : Lane} (h : work_read_step l = some l')
    (hinv : IndexInv l₀ l) : IndexInv l₀ l' := by
  obtain ⟨h1, _, h3, _, h5, h6, h7, h8, h9⟩ := work_read_step_frame h
  unfold IndexInv at hinv ⊢
  rw [h1, h3, h5, h6, h7, h8, h9]
  exact hinv

theorem work_index_step_IndexInv {l₀ l l' : Lane} (h : work_index_step l = some l')
    (hinv : IndexInv l₀ l) : IndexInv l₀ l' := by
  obtain ⟨d, hp, ht, he, hm⟩ := hinv
  unfold work_index_step at h
  split at h
  · next hpc =>
    rw [hpc] at hm
    obtain ⟨hr, hd⟩ := hm
    split at h
    · simp at h
    · next b q' hpop =>
      split at h
      · next hpos =>
        simp only [Option.some.injEq] at h
        subst h
        refine ⟨d ++ [b], ?_, ?_, ?_, ?_⟩
        · simp [hp]
        · simp [ht, List.filter_append, hpos]
        · simp only [List.flatMap_append, List.flatMap_singleton, List.flatMap_nil,
            List.append_nil, ← List.append_assoc, ← he]
          exact insertTokens_getTokens b l.tokBlock l.index hpos
        · exact ⟨d, rfl, hr, rfl, hd⟩
      · next hpos =>
        simp only [Option.some.injEq] at h
        subst h
        refine ⟨d ++ [b], ?_, ?_, ?_, ?_⟩
        · simp [hp]
        · simp [ht, List.filter_append, hpos]
        · simp [he, List.flatMap_append, blockEntries, hpos]
        · exact ⟨d, rfl, hr, rfl, hd⟩
  · next hpc =>
    rw [hpc] at hm
    obtain ⟨d', hd, hr, hl, hall⟩ := hm
    split at h
    · simp at h
    · next q' hpush =>
      simp only [Option.some.injEq] at h
      subst h
      refine ⟨d, hp, ht, he, ?_⟩
      by_cases hs : l.ilength = -1
      · simp only [hs, if_true]
        refine ⟨by simp [hr, hd], d', l.iblock, hd, ?_, hall⟩
        rw [← hl]
        exact hs
      · simp only [hs, if_false]
        refine ⟨by simp [hr, hd], ?_⟩
        intro b hb
        rw [hd] at hb
        rcases List.mem_append.mp hb with hb | hb
        · exact hall b hb
        · simp only [List.mem_singleton] at hb
          subst hb
          rw [← hl]
          exact hs
  · next hpc =>
    rw [hpc] at hm
    simp only [Option.some.injEq] at h
    subst h
    exact ⟨d, hp, ht, he, hm⟩
  · simp at h

theorem Lane.step_IndexInv {l₀ l : Lane} (w : Worker) (hinv : IndexInv l₀ l) :
    IndexInv l₀ (l.step w) := by
  cases w
  · unfold Lane.step
    cases h : work_read_step l with
    | none => simpa using hinv
    | some l' => simpa using work_read_step_IndexInv h hinv
  · unfold Lane.step
    cases h : work_index_step l with
    | none => simpa using hinv
    | some l' => simpa using work_index_step_IndexInv h hinv

theorem Lane.run_IndexInv {l₀ l : Lane} (sched : List Worker) (hinv : IndexInv l₀ l) :
    IndexInv l₀ (l.run sched) := by
  induction sched generalizing l with
  | nil => simpa [Lane.run] using hinv
  | cons w ws ih =>
    simp only [Lane.run, List.foldl_cons]
    exact ih (Lane.step_IndexInv w hinv)

/-- C3: when `work_index` pops a block `b`, then, if `b.length > 0`, the
tokenizer is called on `b` and the pairs `(tokens[i], b.fileIdx)` for
`i = 0, ..., numTokens - 1` are appended to the shard in this order and
nothing else is; if `b.length ≤ 0` (end of file `0`, sentinel `-1`) the
tokenizer is not called and the scratch block and the shard stay as they
were.  The recycling step that follows inserts nothing. -/
theorem C3_tokens_of_a_popped_block (l : Lane) (b : FileDataBlock) (q' : DualQueue)
    (hpc : l.ipc = .pop) (hpop : l.queue.pop_full = some (b, q')) :
    ∃ l', work_index_step l = some l' ∧ l'.popped = l.popped ++ [b] ∧
      l'.ipc = .push ∧ l'.iblock = b ∧
      (0 < b.length →
        l'.tokenized = l.tokenized ++ [b] ∧
        l'.tokBlock = getTokens DELIMITERS b l.tokBlock ∧
        l'.index.entries = l.index.entries ++
          (List.range l'.tokBlock.numTokens).map
            (fun i => (l'.tokBlock.tokens.getD i [], b.fileIdx))) ∧
      (b.length ≤ 0 →
        l'.tokenized = l.tokenized ∧ l'.tokBlock = l.tokBlock ∧ l'.index = l.index) ∧
      (∀ l'', work_index_step l' = some l'' →
        l''.index = l'.index ∧ l''.tokenized = l'.tokenized ∧ l''.recycled = l'.recycled ++ [b]) := by
  by_cases hpos : 0 < b.length
  · refine ⟨_, by simp only [work_index_step, hpc, hpop, hpos, if_true]; rfl, rfl, rfl, rfl,
      ?_, ?_, ?_⟩
    · intro _
      refine ⟨rfl, rfl, ?_⟩
      simp only [insertTokens_entries, List.range_eq_range']
    · intro hle
      omega
    · intro l'' h
      simp only [work_index_step] at h
      split at h
      · simp at h
      · simp only [Option.some.injEq] at h
        subst h
        simp
  · refine ⟨_, by simp only [work_index_step, hpc, hpop, hpos, if_false]; rfl, rfl, rfl, rfl,
      ?_, ?_, ?_⟩
    · intro h
      exact absurd h hpos
    · intro _
      exact ⟨rfl, rfl, rfl⟩
    · intro l'' h
      simp only [work_index_step] at h
      split at h
      · simp at h
      · simp only [Option.some.injEq] at h
        subst h
        simp

/-- Witness of C3: a lane whose full pool holds one block `"ab cd"` of file 7. -/
theorem C3_tokens_of_a_popped_block_witness :
    (work_index_step (laneWithFull [{ buffer := "ab cd".toList, length := 5, fileIdx := 7 }])).map
        (fun l' => l'.index.entries)
      = some [("ab".toList, 7), ("cd".toList, 7)] := by
  obtain ⟨l', h1, _, _, _, h2, _, _⟩ := C3_tokens_of_a_popped_block
    (laneWithFull [{ buffer := "ab cd".toList, length := 5, fileIdx := 7 }])
    { buffer := "ab cd".toList, length := 5, fileIdx := 7 }
    { queue_size := 4, empty := [], full := [] } rfl rfl
  have h3 := h2 (by decide)
  rw [h1, Option.map_some', h3.2.2, h3.2.1]
  decide

/-! ## `work_index` running up to the sentinel -/

theorem DualQueue.pop_full_cons {q : DualQueue} {b : FileDataBlock} {rest : List FileDataBlock}
    (h : q.full = b :: rest) : q.pop_full = some (b, { q with full := rest }) := by
  simp [DualQueue.pop_full, h]

theorem DualQueue.pop_empty_cons {q : DualQueue} {b : FileDataBlock} {rest : List FileDataBlock}
    (h : q.empty = b :: rest) : q.pop_empty = some (b, { q with empty := rest }) := by
  simp [DualQueue.pop_empty, h]

theorem Lane.run_append (l : Lane) (s₁ s₂ : List Worker) :
    l.run (s₁ ++ s₂) = (l.run s₁).run s₂ := by
  simp [Lane.run, List.foldl_append]

theorem Lane.run_cons (l : Lane) (w : Worker) (ws : List Worker) :
    l.run (w :: ws) = (l.step w).run ws := by
  simp [Lane.run]

theorem Lane.run_nil (l : Lane) : l.run [] = l := rfl

/-- One iteration of the loop of `work_index` on the block at the head of the
full pool. -/
theorem index_iteration (l : Lane) (b : FileDataBlock) (rest : List FileDataBlock)
    (hpc : l.ipc = .pop) (hfull : l.queue.full = b :: rest)
    (hcap : l.queue.empty.length < l.queue.queue_size) :
    ((l.step .index).step .index).ipc = (if b.length = -1 then IndexPC.finish else IndexPC.pop) ∧
      ((l.step .index).step .index).queue.full = rest ∧
      ((l.step .index).step .index).queue.empty = l.queue.empty ++ [b] ∧
      ((l.step .index).step .index).queue.queue_size = l.queue.queue_size ∧
      ((l.step .index).step .index).rpc = l.rpc ∧
      ((l.step .index).step .index).reader = l.reader ∧
      ((l.step .index).step .index).fileIdx = l.fileIdx ∧
      ((l.step .index).step .index).fileIndex = l.fileIndex ∧
      ((l.step .index).step .index).total_num_tokens = l.total_num_tokens := by
  have hpop := DualQueue.pop_full_cons hfull
  by_cases hpos : 0 < b.length
  · simp [Lane.step, work_index_step, hpc, hpop, hpos, DualQueue.push_empty, hcap]
  · simp [Lane.step, work_index_step, hpc, hpop, hpos, DualQueue.push_empty, hcap]

theorem index_loop_to_sentinel (pre : List FileDataBlock) (s : FileDataBlock)
    (post : List FileDataBlock) (l : Lane)
    (hpc : l.ipc = .pop) (hfull : l.queue.full = pre ++ s :: post)
    (hpre : ∀ b ∈ pre, b.length ≠ -1) (hs : s.length = -1)
    (hcap : l.queue.empty.length + pre.length < l.queue.queue_size) :
    (l.run (List.replicate (2 * (pre.length + 1)) Worker.index)).ipc = .finish ∧
      (l.run (List.replicate (2 * (pre.length + 1)) Worker.index)).queue.full = post ∧
      (l.run (List.replicate (2 * (pre.length + 1)) Worker.index)).queue.empty
        = l.queue.empty ++ pre ++ [s] ∧
      (l.run (List.replicate (2 * (pre.length + 1)) Worker.index)).total_num_tokens
        = l.total_num_tokens := by
  induction pre generalizing l with
  | nil =>
    simp only [List.nil_append] at hfull
    simp only [List.length_nil, Nat.add_zero] at hcap
    obtain ⟨h1, h2, h3, _, _, _, _, _, h5⟩ := index_iteration l s post hpc hfull hcap
    simp only [List.length_nil, Nat.zero_add, Nat.mul_one, List.append_nil]
    simp only [List.replicate, Lane.run_cons, Lane.run_nil]
    simp only [hs, if_true] at h1
    exact ⟨h1, h2, h3, h5⟩
  | cons b pre ih =>
    simp only [List.cons_append] at hfull
    simp only [List.length_cons] at hcap
    obtain ⟨h1, h2, h3, h4, _, _, _, _, h5⟩ :=
      index_iteration l b (pre ++ s :: post) hpc hfull (by omega)
    have hb : b.length ≠ -1 := hpre b (by simp)
    simp only [hb, if_false] at h1
    have hrec := ih ((l.step .index).step .index) h1 h2
      (fun x hx => hpre x (by simp [hx])) (by rw [h3, h4]; simp; omega)
    have hsplit : List.replicate (2 * ((b :: pre).length + 1)) Worker.index
        = Worker.index :: Worker.index :: List.replicate (2 * (pre.length + 1)) Worker.index := by
      simp only [List.length_cons]
      rw [show 2 * (pre.length + 1 + 1) = 2 * (pre.length + 1) + 1 + 1 by ring]
      rfl
    rw [hsplit, Lane.run_cons, Lane.run_cons]
    obtain ⟨r1, r2, r3, r4⟩ := hrec
    refine ⟨r1, r2, ?_, ?_⟩
    · rw [r3, h3]
      simp
    · rw [r4, h5]

theorem work_index_returned_stays (l : Lane) (h : l.ipc = .returned) (n : Nat) :
    l.run (List.replicate n Worker.index) = l := by
  induction n with
  | zero => rfl
  | succ n ih =>
    simp only [List.replicate, Lane.run_cons]
    have : l.step .index = l := by simp [Lane.step, work_index_step, h]
    rw [this, ih]

theorem first_sentinel_unique {P : FileDataBlock → Prop} :
    ∀ (d pre : List FileDataBlock) (s t : FileDataBlock) (x y : List FileDataBlock),
      d ++ t :: x = pre ++ s :: y → (∀ b ∈ d, ¬ P b) → P t → (∀ b ∈ pre, ¬ P b) → P s →
      d = pre ∧ t = s ∧ x = y := by
  intro d
  induction d with
  | nil =>
    intro pre s t x y h _ ht hpre _
    cases pre with
    | nil =>
      simp only [List.nil_append, List.cons.injEq] at h
      exact ⟨rfl, h.1, h.2⟩
    | cons p pre =>
      simp only [List.nil_append, List.cons_append, List.cons.injEq] at h
      exact absurd (h.1 ▸ ht) (hpre p (by simp))
  | cons a d ih =>
    intro pre s t x y h hd ht hpre hs
    cases pre with
    | nil =>
      simp only [List.nil_append, List.cons_append, List.cons.injEq] at h
      exact absurd (h.1 ▸ hs) (hd a (by simp))
    | cons p pre =>
      simp only [List.cons_append, List.cons.injEq] at h
      obtain ⟨h1, h2, h3⟩ := ih pre s t x y h.2 (fun b hb => hd b (by simp [hb])) ht
        (fun b hb => hpre b (by simp [hb])) hs
      exact ⟨by rw [h.1, h1], h2, h3⟩

theorem work_index_step_popped_full {l l' : Lane} (h : work_index_step l = some l') :
    l'.popped ++ l'.queue.full = l.popped ++ l.queue.full := by
  unfold work_index_step at h
  split at h
  · split at h
    · simp at h
    · next b q' hpop =>
      obtain ⟨h1, _, _⟩ := DualQueue.pop_full_some hpop
      split at h <;>
      · simp only [Option.some.injEq] at h
        subst h
        simp [h1]
  · split at h
    · simp at h
    · next q' hpush =>
      obtain ⟨_, h2, _, _⟩ := DualQueue.push_empty_some hpush
      simp only [Option.some.injEq] at h
      subst h
      simp [h2]
  · simp only [Option.some.injEq] at h
    subst h
    simp
  · simp at h

theorem work_index_popped_full (fuel : Nat) (l : Lane) :
    (work_index fuel l).popped ++ (work_index fuel l).queue.full = l.popped ++ l.queue.full := by
  unfold work_index
  induction fuel generalizing l with
  | zero => rfl
  | succ n ih =>
    simp only [List.replicate, Lane.run_cons]
    rw [ih]
    unfold Lane.step
    cases h : work_index_step l with
    | none => simp
    | some l' => simpa using work_index_step_popped_full h

theorem work_index_finish_step (l : Lane) (h : l.ipc = .finish) :
    l.step .index = { l with
      total_num_tokens := l.total_num_tokens + (l.index.getNumTerms : Int), ipc := .returned } := by
  simp [Lane.step, work_index_step, h]

/-- C2: when `work_index` is about to pop and the full pool holds the blocks
`pre`, then a block `s` with `length == -1`, then `post`, where no block of
`pre` has length `-1`, the loop (running alone, with room in the empty pool)
returns after popping exactly `pre` and `s`, having pushed each of them back to
the empty pool in order, and leaves `post` in the full pool; and whenever the
loop has been left, the blocks popped are exactly `pre` and `s`: it is left on
the first sentinel and on no other block. -/
theorem C2_loop_exits_at_first_sentinel (l : Lane) (pre : List FileDataBlock)
    (s : FileDataBlock) (post : List FileDataBlock)
    (hpc : l.ipc = .pop) (hfull : l.queue.full = pre ++ s :: post)
    (hpre : ∀ b ∈ pre, b.length ≠ -1) (hs : s.length = -1)
    (hcap : l.queue.empty.length + l.queue.full.length ≤ l.queue.queue_size) :
    (∀ fuel, 2 * pre.length + 3 ≤ fuel →
      (work_index fuel l).ipc = .returned ∧
      (work_index fuel l).popped = l.popped ++ pre ++ [s] ∧
      (work_index fuel l).recycled = l.recycled ++ pre ++ [s] ∧
      (work_index fuel l).queue.empty = l.queue.empty ++ pre ++ [s] ∧
      (work_index fuel l).queue.full = post) ∧
    (∀ fuel, (work_index fuel l).ipc = .finish ∨ (work_index fuel l).ipc = .returned →
      (work_index fuel l).popped = l.popped ++ pre ++ [s]) := by
  have exit_only : ∀ fuel,
      (work_index fuel l).ipc = .finish ∨ (work_index fuel l).ipc = .returned →
      (work_index fuel l).popped = l.popped ++ pre ++ [s] ∧
      (work_index fuel l).recycled = l.recycled ++ pre ++ [s] := by
    intro fuel hexit
    obtain ⟨d, hp, _, _, hm⟩ :=
      Lane.run_IndexInv (List.replicate fuel Worker.index) (indexInv_init l hpc)
    have hpf := work_index_popped_full fuel l
    unfold work_index at hexit hpf ⊢
    have hm' : (l.run (List.replicate fuel Worker.index)).recycled = l.recycled ++ d ∧
        ∃ d' t, d = d' ++ [t] ∧ t.length = -1 ∧ ∀ b ∈ d', b.length ≠ -1 := by
      rcases hexit with hx | hx <;>
      · rw [hx] at hm
        exact hm
    obtain ⟨hr, d', t, hd, ht, hd'⟩ := hm'
    rw [hp, hfull, hd] at hpf
    simp only [List.append_assoc, List.singleton_append, List.append_cancel_left_eq] at hpf
    obtain ⟨e1, e2, _⟩ := first_sentinel_unique (P := fun b => b.length = -1)
      d' pre s t _ _ hpf hd' ht hpre hs
    subst e1 e2
    rw [hp, hr, hd]
    simp
  refine ⟨?_, fun fuel h => (exit_only fuel h).1⟩
  intro fuel hfuel
  have hlen : l.queue.full.length = pre.length + 1 + post.length := by
    rw [hfull]
    simp
    omega
  obtain ⟨h1, h2, h3, _⟩ := index_loop_to_sentinel pre s post l hpc hfull hpre hs (by omega)
  obtain ⟨m, rfl⟩ : ∃ m, fuel = 2 * (pre.length + 1) + (1 + m) := ⟨fuel - (2 * pre.length + 3), by omega⟩
  have hrun : work_index (2 * (pre.length + 1) + (1 + m)) l =
      (l.run (List.replicate (2 * (pre.length + 1)) Worker.index)).step .index := by
    unfold work_index
    rw [List.replicate_add, Lane.run_append, List.replicate_add, Lane.run_append]
    generalize l.run (List.replicate (2 * (pre.length + 1)) Worker.index) = l1 at h1 ⊢
    rw [show List.replicate 1 Worker.index = [Worker.index] from rfl, Lane.run_cons,
      Lane.run_nil]
    apply work_index_returned_stays
    rw [work_index_finish_step _ h1]
  have hret : (work_index (2 * (pre.length + 1) + (1 + m)) l).ipc = .returned := by
    rw [hrun, work_index_finish_step _ h1]
  obtain ⟨e1, e2⟩ := exit_only _ (Or.inr hret)
  refine ⟨hret, e1, e2, ?_, ?_⟩
  · rw [hrun, work_index_finish_step _ h1]
    exact h3
  · rw [hrun, work_index_finish_step _ h1]
    exact h2

/-- Witness of C2: a full pool holding an end-of-file block, a sentinel and one
more block. -/
theorem C2_loop_exits_at_first_sentinel_witness :
    (work_index 5
        { Lane.init 3 8 { entries := [] } "f" { can_open := true, chunks := [] } with
          queue := { queue_size := 3, empty := [],
                     full := [{ buffer := [], length := 0, fileIdx := 0 },
                              { buffer := [], length := -1, fileIdx := 0 },
                              { buffer := ['a'], length := 1, fileIdx := 0 }] } }).popped
      = [{ buffer := [], length := 0, fileIdx := 0 }, { buffer := [], length := -1, fileIdx := 0 }] :=
  ((C2_loop_exits_at_first_sentinel
    { Lane.init 3 8 { entries := [] } "f" { can_open := true, chunks := [] } with
      queue := { queue_size := 3, empty := [],
                 full := [{ buffer := [], length := 0, fileIdx := 0 },
                          { buffer := [], length := -1, fileIdx := 0 },
                          { buffer := ['a'], length := 1, fileIdx := 0 }] } }
    [{ buffer := [], length := 0, fileIdx := 0 }]
    { buffer := [], length := -1, fileIdx := 0 }
    [{ buffer := ['a'], length := 1, fileIdx := 0 }]
    rfl rfl (by decide) rfl (by decide)).1 5 (by decide)).2.1

/-! ## `work_read` -/

theorem work_read_returned_stays (l : Lane) (h : l.rpc = .returned) (n : Nat) :
    l.run (List.replicate n Worker.read) = l := by
  induction n with
  | zero => rfl
  | succ n ih =>
    simp only [List.replicate, Lane.run_cons]
    have : l.step .read = l := by simp [Lane.step, work_read_step, h]
    rw [this, ih]

/-- C5: when `open()` fails, `work_read` returns at its first step and leaves
the lane as it was: the File Index has no new entry, no block has left the
empty pool and none has entered the full pool. -/
theorem C5_failed_open_changes_nothing (l : Lane) (fuel : Nat)
    (hpc : l.rpc = .start) (hopen : l.reader.can_open = false) :
    (work_read fuel l).fileIndex = l.fileIndex ∧
      (work_read fuel l).queue = l.queue ∧
      (work_read fuel l).pushed = l.pushed ∧
      (1 ≤ fuel → work_read fuel l = { l with rpc := .returned }) := by
  cases fuel with
  | zero => simp [work_read, Lane.run]
  | succ n =>
    have hstep : l.step .read = { l with rpc := .returned } := by
      simp [Lane.step, work_read_step, hpc, hopen]
    have hrun : work_read (n + 1) l = { l with rpc := .returned } := by
      unfold work_read
      simp only [List.replicate, Lane.run_cons]
      rw [hstep]
      exact work_read_returned_stays _ rfl n
    rw [hrun]
    simp

/-- Witness of C5: a reader whose file cannot be opened, on a fresh lane. -/
theorem C5_failed_open_changes_nothing_witness :
    (work_read 3 (Lane.init 2 8 { entries := [] } "missing"
        { can_open := false, chunks := [['a']] })).fileIndex = { paths := [] } ∧
      (work_read 3 (Lane.init 2 8 { entries := [] } "missing"
        { can_open := false, chunks := [['a']] })).queue
        = FileDualQueueMemoryComponent 2 (8 + BLOCK_ADDON_SIZE) :=
  ⟨(C5_failed_open_changes_nothing (Lane.init 2 8 { entries := [] } "missing"
      { can_open := false, chunks := [['a']] }) 3 rfl rfl).1,
   (C5_failed_open_changes_nothing (Lane.init 2 8 { entries := [] } "missing"
      { can_open := false, chunks := [['a']] }) 3 rfl rfl).2.1⟩

theorem readInv_init (l₀ : Lane) (h : l₀.rpc = .start) : ReadInv l₀ l₀ := by
  simp [ReadInv, h]

theorem work_index_step_ReadInv {l₀ l l' : Lane} (h : work_index_step l = some l')
    (hinv : ReadInv l₀ l) : ReadInv l₀ l' := by
  obtain ⟨h1, h2, h3, h4, h5, h6, h7, h8⟩ := work_index_step_frame h
  unfold ReadInv at hinv ⊢
  rw [h1, h2, h3, h4, h5, h6, h7, h8]
  exact hinv

theorem content_readNextBlock (r : WaveFileReaderDriver) (b : FileDataBlock) (fileIdx : Int) :
    ({ (r.readNextBlock b).2 with fileIdx := fileIdx } : FileDataBlock).content
        :: (if (r.readNextBlock b).2.length = 0 then []
            else fileBlocks fileIdx (r.readNextBlock b).1.chunks)
      = fileBlocks fileIdx r.chunks := by
  unfold WaveFileReaderDriver.readNextBlock
  cases hc : r.chunks with
  | nil => simp [FileDataBlock.content, fileBlocks]
  | cons c rest =>
    by_cases he : c = []
    · simp [FileDataBlock.content, fileBlocks, he]
    · have hlen : ¬ ((c.length : Int) = 0) := by
        simpa using he
      simp [FileDataBlock.content, fileBlocks, he, List.take_append_eq_append_take]

theorem work_read_step_ReadInv {l₀ l l' : Lane} (h : work_read_step l = some l')
    (hinv : ReadInv l₀ l) : ReadInv l₀ l' := by
  unfold work_read_step at h
  split at h
  · next hpc =>
    simp only [ReadInv, hpc] at hinv
    obtain ⟨hp, hf, hr, hn⟩ := hinv
    split at h
    · next hopen =>
      simp only [Option.some.injEq] at h
      subst h
      simp only [ReadInv]
      refine ⟨by rw [← hr]; exact hopen, by rw [hf, hn], by rw [hf, hn], [], by simp [hp],
        by simp [hr]⟩
    · next hopen =>
      simp only [Option.some.injEq] at h
      subst h
      simp only [ReadInv]
      rw [← hr]
      simp [hopen, hp, hf]
  · next hpc =>
    simp only [ReadInv, hpc] at hinv
    obtain ⟨ho, hx, hf, d, hd, he⟩ := hinv
    split at h
    · simp at h
    · next b q' hpop =>
      simp only [Option.some.injEq] at h
      subst h
      simp only [ReadInv]
      refine ⟨ho, hx, hf, trivial, d, hd, ?_⟩
      rw [← he, List.map_append, List.append_assoc]
      congr 1
      exact content_readNextBlock l.reader b l.fileIdx
  · next hpc =>
    simp only [ReadInv, hpc] at hinv
    obtain ⟨ho, hx, hf, hl, d, hd, he⟩ := hinv
    split at h
    · simp at h
    · next q' hpush =>
      simp only [Option.some.injEq] at h
      subst h
      by_cases hz : l.rlength = 0
      · simp only [ReadInv, hz, if_true, ho]
        simp only [hz, if_true, List.append_nil] at he
        refine ⟨hf, d ++ [l.rblock], by simp [hd], ?_⟩
        rw [← hx]
        exact he
      · simp only [ReadInv, hz, if_false]
        simp only [hz, if_false] at he
        exact ⟨ho, hx, hf, d ++ [l.rblock], by simp [hd], he⟩
  · simp at h

theorem Lane.run_ReadInv {l₀ l : Lane} (sched : List Worker) (hinv : ReadInv l₀ l) :
    ReadInv l₀ (l.run sched) := by
  induction sched generalizing l with
  | nil => simpa [Lane.run] using hinv
  | cons w ws ih =>
    rw [Lane.run_cons]
    apply ih
    cases w
    · unfold Lane.step
      cases h : work_read_step l with
      | none => simpa using hinv
      | some l' => simpa using work_read_step_ReadInv h hinv
    · unfold Lane.step
      cases h : work_index_step l with
      | none => simpa using hinv
      | some l' => simpa using work_index_step_ReadInv h hinv

/-- One iteration of the loop of `work_read` on the block at the head of the
empty pool. -/
theorem read_iteration (l : Lane) (e : FileDataBlock) (es : List FileDataBlock)
    (hr : l.rpc = .pop) (hempty : l.queue.empty = e :: es)
    (hcap : l.queue.full.length < l.queue.queue_size) :
    ((l.step .read).step .read).rpc
        = (if (l.reader.readNextBlock e).2.length = 0 then ReadPC.returned else ReadPC.pop) ∧
      ((l.step .read).step .read).queue.empty = es ∧
      ((l.step .read).step .read).queue.full
        = l.queue.full ++ [{ (l.reader.readNextBlock e).2 with fileIdx := l.fileIdx }] ∧
      ((l.step .read).step .read).queue.queue_size = l.queue.queue_size ∧
      ((l.step .read).step .read).reader = (l.reader.readNextBlock e).1 ∧
      ((l.step .read).step .read).ipc = l.ipc := by
  have hpop := DualQueue.pop_empty_cons hempty
  simp [Lane.step, work_read_step, hr, hpop, DualQueue.push_full, hcap]

theorem readNextBlock_length_ne (r : WaveFileReaderDriver) (b : FileDataBlock) :
    (r.readNextBlock b).2.length ≠ -1 := by
  unfold WaveFileReaderDriver.readNextBlock
  cases r.chunks with
  | nil => simp
  | cons c rest =>
    simp only [ne_eq]
    omega

theorem read_returns_with_indexer (chunks : List (List Char)) :
    ∀ l : Lane, l.reader.chunks = chunks → l.rpc = .pop → l.ipc = .pop →
      l.queue.full = [] → l.queue.empty ≠ [] → l.queue.empty.length ≤ l.queue.queue_size →
      ∃ sched, (l.run sched).rpc = .returned := by
  induction chunks with
  | nil =>
    intro l hc hr _ hfull hne hcap
    obtain ⟨e, es, hempty⟩ := List.exists_cons_of_ne_nil hne
    have hlt : l.queue.full.length < l.queue.queue_size := by
      rw [hfull]
      rw [hempty] at hcap
      simp at hcap ⊢
      omega
    obtain ⟨h1, _⟩ := read_iteration l e es hr hempty hlt
    refine ⟨[.read, .read], ?_⟩
    simp only [Lane.run_cons, Lane.run_nil]
    rw [h1]
    simp [WaveFileReaderDriver.readNextBlock, hc]
  | cons c rest ih =>
    intro l hc hr hi hfull hne hcap
    obtain ⟨e, es, hempty⟩ := List.exists_cons_of_ne_nil hne
    have hlt : l.queue.full.length < l.queue.queue_size := by
      rw [hfull]
      rw [hempty] at hcap
      simp at hcap ⊢
      omega
    obtain ⟨h1, h2, h3, h4, h5, h6⟩ := read_iteration l e es hr hempty hlt
    by_cases hz : c = []
    · refine ⟨[.read, .read], ?_⟩
      simp only [Lane.run_cons, Lane.run_nil]
      rw [h1]
      simp [WaveFileReaderDriver.readNextBlock, hc, hz]
    · have hlen : (l.reader.readNextBlock e).2.length ≠ 0 := by
        simp [WaveFileReaderDriver.readNextBlock, hc, hz]
      simp only [hlen, if_false] at h1
      rw [hfull, List.nil_append] at h3
      have hes : es.length < l.queue.queue_size := by
        rw [hempty] at hcap
        simp at hcap
        omega
      obtain ⟨g1, g2, g3, g4, g5, g6, _, _, _⟩ :=
        index_iteration ((l.step .read).step .read) _ [] (by rw [h6, hi]) h3
          (by rw [h2, h4]; exact hes)
      have hne1 := readNextBlock_length_ne l.reader e
      simp only [hne1, if_false] at g1
      obtain ⟨sched, hs⟩ := ih ((((l.step .read).step .read).step .index).step .index)
        (by rw [g6, h5]; simp [WaveFileReaderDriver.readNextBlock, hc])
        (by rw [g5, h1]) g1 g2 (by rw [g3]; simp)
        (by rw [g3, g4, h2, h4]; simp; omega)
      refine ⟨.read :: .read :: .index :: .index :: sched, ?_⟩
      simp only [Lane.run_cons]
      exact hs

theorem fileBlocks_append (fileIdx : Int) (cs rest : List (List Char))
    (hcs : ∀ c ∈ cs, c ≠ []) (hrest : rest = [] ∨ ∃ r, rest = [] :: r) :
    fileBlocks fileIdx (cs ++ rest)
      = cs.map (fun c => (c, (c.length : Int), fileIdx)) ++ [([], 0, fileIdx)] := by
  induction cs with
  | nil =>
    rcases hrest with h | ⟨r, h⟩ <;> simp [h, fileBlocks]
  | cons c cs ih =>
    have hc : c ≠ [] := hcs c (by simp)
    have h := ih (fun x hx => hcs x (by simp [hx]))
    rw [List.cons_append, List.map_cons, List.cons_append, ← h]
    simp [fileBlocks, hc]

/-- C4: for a file that opens and whose reader yields the non-empty chunks
`cs` and then a read of length `0`, under every schedule the contents of the
blocks `work_read` has pushed to the full pool are an initial segment of: the
chunks of `cs` in file order, then one terminal block of length `0`, each
with the file identifier returned by the File Index insert; once `work_read`
has returned they are exactly these `k + 1` blocks.  With an indexer recycling
the blocks, `work_read` does return. -/
theorem C4_file_blocks_pushed_in_order (l : Lane) (cs rest : List (List Char))
    (hpc : l.rpc = .start) (hopen : l.reader.can_open = true)
    (hchunks : l.reader.chunks = cs ++ rest) (hcs : ∀ c ∈ cs, c ≠ [])
    (hrest : rest = [] ∨ ∃ r, rest = [] :: r) :
    (∀ sched, ∃ d, (l.run sched).pushed = l.pushed ++ d ∧
      d.map FileDataBlock.content <+:
        cs.map (fun c => (c, (c.length : Int), (l.fileIndex.insert l.filename).1))
          ++ [([], 0, (l.fileIndex.insert l.filename).1)] ∧
      ((l.run sched).rpc = .returned →
        d.map FileDataBlock.content =
          cs.map (fun c => (c, (c.length : Int), (l.fileIndex.insert l.filename).1))
            ++ [([], 0, (l.fileIndex.insert l.filename).1)] ∧
        (l.run sched).fileIndex = (l.fileIndex.insert l.filename).2)) ∧
    (l.ipc = .pop → l.queue.full = [] → l.queue.empty ≠ [] →
      l.queue.empty.length ≤ l.queue.queue_size →
      ∃ sched, (l.run sched).rpc = .returned) := by
  constructor
  · intro sched
    have hinv := Lane.run_ReadInv sched (readInv_init l hpc)
    rw [← fileBlocks_append _ cs rest hcs hrest, ← hchunks]
    unfold ReadInv at hinv
    split at hinv
    · next hx =>
      refine ⟨[], by simp [hinv.1], List.nil_prefix, ?_⟩
      intro hret
      rw [hx] at hret
      cases hret
    · next hx =>
      obtain ⟨_, hf, _, d, hd, he⟩ := hinv
      rw [hf] at he
      refine ⟨d, hd, ⟨_, he⟩, ?_⟩
      intro hret
      rw [hx] at hret
      cases hret
    · next hx =>
      obtain ⟨_, hf, _, _, d, hd, he⟩ := hinv
      rw [hf, List.map_append, List.append_assoc] at he
      refine ⟨d, hd, ⟨_, he⟩, ?_⟩
      intro hret
      rw [hx] at hret
      cases hret
    · next hx =>
      simp only [hopen, if_true] at hinv
      obtain ⟨hf, d, hd, he⟩ := hinv
      exact ⟨d, hd, by rw [he], fun _ => ⟨he, hf⟩⟩
  · intro hi hfull hne hcap
    have hstep : l.step .read = { l with
        fileIdx := (l.fileIndex.insert l.filename).1,
        fileIndex := (l.fileIndex.insert l.filename).2, rpc := .pop } := by
      simp [Lane.step, work_read_step, hpc, hopen]
    obtain ⟨sched, hs⟩ := read_returns_with_indexer l.reader.chunks (l.step .read)
      (by rw [hstep]) (by rw [hstep]) (by rw [hstep]; exact hi) (by rw [hstep]; exact hfull)
      (by rw [hstep]; exact hne) (by rw [hstep]; exact hcap)
    exact ⟨.read :: sched, by rw [Lane.run_cons]; exact hs⟩

/-! ## A whole file through the lane -/

theorem blockEntries_eq_contentEntries (b : FileDataBlock) :
    blockEntries b = contentEntries b.content := rfl

theorem flatMap_blockEntries (d : List FileDataBlock) :
    d.flatMap blockEntries = (d.map FileDataBlock.content).flatMap contentEntries := by
  induction d with
  | nil => rfl
  | cons b d ih => simp [List.flatMap_cons, ih, blockEntries_eq_contentEntries]

theorem filter_positive_content (d : List FileDataBlock) :
    (d.filter (fun b => decide (0 < b.length))).map FileDataBlock.content
      = (d.map FileDataBlock.content).filter (fun c => decide (0 < c.2.1)) := by
  induction d with
  | nil => rfl
  | cons b d ih =>
    by_cases h : 0 < b.length
    · simp [List.filter_cons, h, ih, FileDataBlock.content]
    · simp [List.filter_cons, h, ih, FileDataBlock.content]

/-- A lane that starts with empty histories and an empty full pool, once
`work_read` has returned and `work_index` has popped and recycled every
pushed block: what was popped, tokenized, recycled and inserted. -/
theorem lane_file_processed (l : Lane) (sched : List Worker)
    (hr : l.rpc = .start) (hi : l.ipc = .pop) (hopen : l.reader.can_open = true)
    (hfull : l.queue.full = []) (hpopped : l.popped = []) (hpushed : l.pushed = [])
    (htok : l.tokenized = []) (hrec : l.recycled = [])
    (hret : (l.run sched).rpc = .returned)
    (hall : (l.run sched).popped.length = (l.run sched).pushed.length)
    (hidle : (l.run sched).ipc = .pop) :
    (l.run sched).popped.map FileDataBlock.content
        = fileBlocks (l.fileIndex.insert l.filename).1 l.reader.chunks ∧
      (l.run sched).tokenized.map FileDataBlock.content
        = (fileBlocks (l.fileIndex.insert l.filename).1 l.reader.chunks).filter
            (fun c => decide (0 < c.2.1)) ∧
      (l.run sched).recycled = (l.run sched).popped ∧
      (l.run sched).queue.full = [] ∧
      (l.run sched).index.entries = l.index.entries ++
        (fileBlocks (l.fileIndex.insert l.filename).1 l.reader.chunks).flatMap contentEntries ∧
      (l.run sched).fileIndex = (l.fileIndex.insert l.filename).2 := by
  have hfifo := Lane.run_fifo l sched [] (by simp [hfull, hpopped, hpushed])
  simp only [List.nil_append] at hfifo
  have hlen := congrArg List.length hfifo
  simp only [List.length_append] at hlen
  have hfull' : (l.run sched).queue.full = [] := List.eq_nil_of_length_eq_zero (by omega)
  rw [hfull', List.append_nil] at hfifo
  have hread := Lane.run_ReadInv sched (readInv_init l hr)
  simp only [ReadInv, hret, hopen, if_true] at hread
  obtain ⟨hf, d, hd, he⟩ := hread
  rw [hpushed, List.nil_append] at hd
  obtain ⟨d', hp, ht, hent, hm⟩ := Lane.run_IndexInv sched (indexInv_init l hi)
  rw [hidle] at hm
  rw [hpopped, List.nil_append] at hp
  rw [htok, List.nil_append] at ht
  rw [hrec, List.nil_append] at hm
  have hdd : d' = d := by rw [← hp, ← hd, hfifo]
  subst hdd
  refine ⟨by rw [hp, he], ?_, by rw [hm.1, hp], hfull', ?_, hf⟩
  · rw [ht, filter_positive_content, he]
  · rw [hent, flatMap_blockEntries, he]

theorem fileBlocks_lane20 :
    fileBlocks (lane20.fileIndex.insert lane20.filename).1 lane20.reader.chunks
      = [("AAAAAAAA".toList, 8, 0), ("BBBBBBBB".toList, 8, 0), ("CCCC".toList, 4, 0),
         ([], 0, 0)] := by
  decide

/-- C7 (as amended): on the lane with `queue_size = 2` and `block_size = 8`
and the 20-byte file delivered as `"AAAAAAAA"`, `"BBBBBBBB"`, `"CCCC"` and a
zero-length block, under every schedule after which `work_read` has returned
and `work_index` has popped and recycled the four blocks, the shard holds
exactly the tokens of each block taken on its own, `AAAAAAAA`, `BBBBBBBB` and
`CCCC`, each inserted with the file identifier `0` that the File Index gave
the file; the trailing block of length `0` was popped and pushed back to the
empty pool without being tokenized. -/
theorem C7_each_block_tokenized_on_its_own (sched : List Worker)
    (hret : (lane20.run sched).rpc = .returned)
    (hall : (lane20.run sched).popped.length = 4)
    (hidle : (lane20.run sched).ipc = .pop) :
    (lane20.run sched).index.entries
        = [("AAAAAAAA".toList, 0), ("BBBBBBBB".toList, 0), ("CCCC".toList, 0)] ∧
      (lane20.run sched).index.terms
        = ["AAAAAAAA".toList, "BBBBBBBB".toList, "CCCC".toList] ∧
      (lane20.run sched).fileIndex.paths = ["f"] ∧
      (lane20.fileIndex.insert lane20.filename).1 = 0 ∧
      (lane20.run sched).popped.map FileDataBlock.content
        = [("AAAAAAAA".toList, 8, 0), ("BBBBBBBB".toList, 8, 0), ("CCCC".toList, 4, 0),
           ([], 0, 0)] ∧
      (lane20.run sched).tokenized.map FileDataBlock.content
        = [("AAAAAAAA".toList, 8, 0), ("BBBBBBBB".toList, 8, 0), ("CCCC".toList, 4, 0)] ∧
      (lane20.run sched).recycled = (lane20.run sched).popped ∧
      (lane20.run sched).queue.full = [] ∧
      (lane20.run sched).queue.empty.length = 2 := by
  have hread := Lane.run_ReadInv sched (readInv_init lane20 rfl)
  simp only [ReadInv, hret] at hread
  rw [if_pos (show lane20.reader.can_open = true from rfl)] at hread
  obtain ⟨_, d, hd, he⟩ := hread
  have hpl : (lane20.run sched).pushed.length = 4 := by
    have h := congrArg List.length he
    rw [fileBlocks_lane20] at h
    rw [hd]
    simpa [lane20, Lane.init] using h
  obtain ⟨h1, h2, h3, h4, h5, h6⟩ := lane_file_processed lane20 sched rfl rfl rfl rfl rfl rfl
    rfl rfl hret (by rw [hall, hpl]) hidle
  rw [fileBlocks_lane20] at h1 h2 h5
  have hent : (lane20.run sched).index.entries
      = [("AAAAAAAA".toList, 0), ("BBBBBBBB".toList, 0), ("CCCC".toList, 0)] := by
    rw [h5]
    decide
  have hblocks := (Lane.run_blocks lane20 sched).1
  refine ⟨hent, ?_, ?_, by decide, h1, ?_, h3, h4, ?_⟩
  · unfold BaseTFIDFIndex.terms
    rw [hent]
    decide
  · rw [h6]
    decide
  · rw [h2]
    decide
  · unfold Lane.blocks Lane.held at hblocks
    rw [h4, hret, hidle] at hblocks
    simpa [lane20, Lane.init, FileDualQueueMemoryComponent] using hblocks

/-- Witness of C7: the run `sched20`, in which the indexer recycles each block
right after the reader pushed it. -/
theorem C7_each_block_tokenized_on_its_own_witness :
    (lane20.run sched20).index.entries
      = [("AAAAAAAA".toList, 0), ("BBBBBBBB".toList, 0), ("CCCC".toList, 0)] :=
  (C7_each_block_tokenized_on_its_own sched20 (by decide) (by decide) (by decide)).1

/-- Counterexample to C7 as stated: after the complete run `sched20` the terms
of the shard are not the whitespace-delimited tokens of the concatenation of
the three blocks (which is the single token of twenty characters); the shard
holds one token per block. -/
theorem C7_counterexample :
    (lane20.run sched20).rpc = .returned ∧
      (lane20.run sched20).popped.length = 4 ∧
      (lane20.run sched20).ipc = .pop ∧
      (splitTokens DELIMITERS ("AAAAAAAA".toList ++ "BBBBBBBB".toList ++ "CCCC".toList) []).dedup
        = ["AAAAAAAABBBBBBBBCCCC".toList] ∧
      (lane20.run sched20).index.terms
        = ["AAAAAAAA".toList, "BBBBBBBB".toList, "CCCC".toList] ∧
      (lane20.run sched20).index.terms ≠
        (splitTokens DELIMITERS
          ("AAAAAAAA".toList ++ "BBBBBBBB".toList ++ "CCCC".toList) []).dedup := by
  decide

/-! ## The shared term counter -/

theorem lane_step_reported (l : Lane) (T : Int) (w : Worker) :
    (Lane.step { l with total_num_tokens := T } w).total_num_tokens
        - (Lane.step { l with total_num_tokens := T } w).reported
      = T - l.reported := by
  cases w
  · unfold Lane.step
    cases h : work_read_step { l with total_num_tokens := T } with
    | none => simp [Lane.reported]
    | some l' =>
      obtain ⟨h1, h2, h3, _⟩ := work_read_step_frame h
      simp only [Option.getD_some, Lane.reported, h1, h2, h3]
  · cases hpc : l.ipc with
    | pop =>
      cases hq : l.queue.pop_full with
      | none => simp [Lane.step, work_index_step, hpc, hq, Lane.reported]
      | some bq =>
        by_cases hpos : 0 < bq.1.length
        · simp [Lane.step, work_index_step, hpc, hq, Lane.reported, hpos]
        · simp [Lane.step, work_index_step, hpc, hq, Lane.reported, hpos]
    | push =>
      cases hq : l.queue.push_empty l.iblock with
      | none => simp [Lane.step, work_index_step, hpc, hq, Lane.reported]
      | some q' =>
        by_cases hs : l.ilength = -1
        · simp [Lane.step, work_index_step, hpc, hq, Lane.reported, hs]
        · simp [Lane.step, work_index_step, hpc, hq, Lane.reported, hs]
    | finish => simp [Lane.step, work_index_step, hpc, Lane.reported]
    | returned => simp [Lane.step, work_index_step, hpc, Lane.reported]

theorem sum_map_set (f : Lane → Int) (lanes : List Lane) (i : Nat) (l l' : Lane)
    (h : lanes[i]? = some l) :
    ((lanes.set i l').map f).sum = (lanes.map f).sum - f l + f l' := by
  induction lanes generalizing i with
  | nil => simp at h
  | cons a as ih =>
    cases i with
    | zero =>
      simp only [List.getElem?_cons_zero, Option.some.injEq] at h
      subst h
      simp only [List.set_cons_zero, List.map_cons, List.sum_cons]
      ring
    | succ i =>
      simp only [List.getElem?_cons_succ] at h
      simp only [List.set_cons_succ, List.map_cons, List.sum_cons, ih i h]
      ring

theorem pipeline_step_reported (p : Pipeline) (iw : Nat × Worker) :
    (p.step iw).total_num_tokens - ((p.step iw).lanes.map Lane.reported).sum
      = p.total_num_tokens - (p.lanes.map Lane.reported).sum := by
  unfold Pipeline.step
  cases h : p.lanes[iw.1]? with
  | none => rfl
  | some l =>
    simp only
    rw [sum_map_set Lane.reported p.lanes iw.1 l _ h]
    have := lane_step_reported l p.total_num_tokens iw.2
    omega

theorem Pipeline.run_reported (p : Pipeline) (sched : List (Nat × Worker)) :
    (p.run sched).total_num_tokens - ((p.run sched).lanes.map Lane.reported).sum
      = p.total_num_tokens - (p.lanes.map Lane.reported).sum := by
  induction sched generalizing p with
  | nil => rfl
  | cons iw rest ih =>
    simp only [Pipeline.run, List.foldl_cons] at ih ⊢
    rw [ih (p.step iw), pipeline_step_reported]

theorem sum_reported_zero (lanes : List Lane) (h : ∀ l ∈ lanes, l.ipc ≠ .returned) :
    (lanes.map Lane.reported).sum = 0 := by
  induction lanes with
  | nil => rfl
  | cons a as ih =>
    have ha : a.ipc ≠ .returned := h a (by simp)
    simp only [List.map_cons, List.sum_cons, ih (fun l hl => h l (by simp [hl]))]
    simp [Lane.reported, ha]

theorem sum_reported_all (lanes : List Lane) (h : ∀ l ∈ lanes, l.ipc = .returned) :
    (lanes.map Lane.reported).sum = (lanes.map (fun l => (l.index.getNumTerms : Int))).sum := by
  induction lanes with
  | nil => rfl
  | cons a as ih =>
    have ha : a.ipc = .returned := h a (by simp)
    simp only [List.map_cons, List.sum_cons, ih (fun l hl => h l (by simp [hl]))]
    simp [Lane.reported, ha]

theorem left_loop_index_fixed (l : Lane) (w : Worker)
    (h : l.ipc = .finish ∨ l.ipc = .returned) :
    (l.step w).index = l.index ∧ ((l.step w).ipc = .finish ∨ (l.step w).ipc = .returned) := by
  cases w
  · unfold Lane.step
    cases hs : work_read_step l with
    | none => simpa using h
    | some l' =>
      obtain ⟨h1, _, h3, _⟩ := work_read_step_frame hs
      simp only [Option.getD_some, h1, h3]
      exact ⟨trivial, h⟩
  · rcases h with h | h <;> simp [Lane.step, work_index_step, h]

/-- C8: for any lanes whose `work_index` has not returned and a shared counter
that starts at `0`, under every interleaving of the workers of all lanes the
counter equals the sum of the term counts of the shards whose `work_index`
has returned (each added once, by the one step that returns); so once every
`work_index` has returned it equals the sum over all shards of
`getNumTerms()`.  A shard does not change after its worker left the loop, so
this is its term count at that moment. -/
theorem C8_total_is_sum_of_shard_counts (lanes : List Lane) (sched : List (Nat × Worker))
    (hstart : ∀ l ∈ lanes, l.ipc ≠ .returned) :
    (Pipeline.run { lanes := lanes, total_num_tokens := 0 } sched).total_num_tokens
        = ((Pipeline.run { lanes := lanes, total_num_tokens := 0 } sched).lanes.map
            Lane.reported).sum ∧
      ((∀ l ∈ (Pipeline.run { lanes := lanes, total_num_tokens := 0 } sched).lanes,
          l.ipc = .returned) →
        (Pipeline.run { lanes := lanes, total_num_tokens := 0 } sched).total_num_tokens
          = ((Pipeline.run { lanes := lanes, total_num_tokens := 0 } sched).lanes.map
              (fun l => (l.index.getNumTerms : Int))).sum) ∧
      (∀ (l : Lane) (w : Worker), l.ipc = .finish ∨ l.ipc = .returned →
        (l.step w).index = l.index ∧
          ((l.step w).ipc = .finish ∨ (l.step w).ipc = .returned)) := by
  have h := Pipeline.run_reported { lanes := lanes, total_num_tokens := 0 } sched
  simp only [sum_reported_zero lanes hstart] at h
  have h1 : (Pipeline.run { lanes := lanes, total_num_tokens := 0 } sched).total_num_tokens
      = ((Pipeline.run { lanes := lanes, total_num_tokens := 0 } sched).lanes.map
          Lane.reported).sum := by
    omega
  refine ⟨h1, ?_, left_loop_index_fixed⟩
  intro hall
  rw [h1, sum_reported_all _ hall]

/-- Witness of C8: two lanes, one indexing `"ab cd"` and one indexing `"ab"`,
each followed by the sentinel, with the steps of the two workers interleaved. -/
theorem C8_total_is_sum_of_shard_counts_witness :
    (Pipeline.run
      { lanes := [laneWithFull [{ buffer := "ab cd".toList, length := 5, fileIdx := 0 },
                                { buffer := [], length := -1, fileIdx := 0 }],
                  laneWithFull [{ buffer := "ab".toList, length := 2, fileIdx := 0 },
                                { buffer := [], length := -1, fileIdx := 0 }]],
        total_num_tokens := 0 }
      [(0, .index), (1, .index), (1, .index), (0, .index), (0, .index), (1, .index),
       (0, .index), (1, .index), (1, .index), (0, .index)]).total_num_tokens = 3 := by
  have h := (C8_total_is_sum_of_shard_counts
    [laneWithFull [{ buffer := "ab cd".toList, length := 5, fileIdx := 0 },
                   { buffer := [], length := -1, fileIdx := 0 }],
     laneWithFull [{ buffer := "ab".toList, length := 2, fileIdx := 0 },
                   { buffer := [], length := -1, fileIdx := 0 }]]
    [(0, .index), (1, .index), (1, .index), (0, .index), (0, .index), (1, .index),
     (0, .index), (1, .index), (1, .index), (0, .index)] (by decide)).2.1 (by decide)
  rw [h]
  decide

/-! ## The bucket count -/

theorem is_prime_iff (n : Nat) : is_prime n = true ↔ Nat.Prime n := by
  rw [Nat.prime_def_lt']
  simp only [is_prime, Bool.and_eq_true, decide_eq_true_eq, List.all_eq_true, List.mem_range,
    bne_iff_ne, ne_eq]
  constructor
  · rintro ⟨h2, hall⟩
    refine ⟨h2, fun m hm hlt hdvd => ?_⟩
    have := hall (m - 2) (by omega)
    rw [show m - 2 + 2 = m by omega] at this
    exact this (Nat.mod_eq_zero_of_dvd hdvd)
  · rintro ⟨h2, hall⟩
    refine ⟨h2, fun d hd hmod => ?_⟩
    exact hall (d + 2) (by omega) (by omega) (Nat.dvd_of_mod_eq_zero hmod)

theorem nextPrimeFrom_eq (fuel : Nat) : ∀ n p : Nat, Nat.Prime p → n ≤ p → p - n < fuel →
    (∀ q, n ≤ q → q < p → ¬ Nat.Prime q) → nextPrimeFrom fuel n = p := by
  induction fuel with
  | zero =>
    intro n p _ _ h _
    omega
  | succ fuel ih =>
    intro n p hp hle hfuel hmin
    unfold nextPrimeFrom
    by_cases hn : is_prime n = true
    · rw [if_pos hn]
      have hnp := (is_prime_iff n).mp hn
      by_contra hne
      exact hmin n le_rfl (by omega) hnp
    · rw [if_neg hn]
      have hne : n ≠ p := by
        rintro rfl
        exact hn ((is_prime_iff n).mpr hp)
      exact ih (n + 1) p hp (by omega) (by omega) (fun q hq hlt => hmin q (by omega) hlt)

theorem get_next_prime_number_spec (n : Nat) :
    Nat.Prime (get_next_prime_number n) ∧ n ≤ get_next_prime_number n ∧
      ∀ p, Nat.Prime p → n ≤ p → get_next_prime_number n ≤ p := by
  have hex : ∃ p, Nat.Prime p ∧ n ≤ p := by
    obtain ⟨p, h1, h2⟩ := Nat.exists_infinite_primes n
    exact ⟨p, h2, h1⟩
  have hspec := Nat.find_spec hex
  have hbound : Nat.find hex ≤ 2 * n + 2 := by
    by_cases h0 : n = 0
    · have := Nat.find_min' hex ⟨Nat.prime_two, by omega⟩
      omega
    · obtain ⟨p, hp, hlt, hle⟩ := Nat.exists_prime_lt_and_le_two_mul n h0
      have := Nat.find_min' hex ⟨hp, hlt.le⟩
      omega
  have heq : get_next_prime_number n = Nat.find hex := by
    unfold get_next_prime_number
    apply nextPrimeFrom_eq _ _ _ hspec.1 hspec.2
    · omega
    · intro q hq hlt hprime
      have := Nat.find_min' hex ⟨hprime, hq⟩
      omega
  rw [heq]
  exact ⟨hspec.1, hspec.2, fun p hp hle => Nat.find_min' hex ⟨hp, hle⟩⟩

/-- C9: for every capacity budget `0 ≤ initial_capacity` (a `long`) and every
positive bucket size, the bucket count that `work_init_indexes` computes is a
prime, is at least `1`, and is the smallest prime at or above
`initial_capacity / bucketSize`; for a budget below one bucket it is `2`. -/
theorem C9_bucket_count_is_next_prime (page_size initial_capacity : Int) (bucketSize : Nat)
    (h0 : 0 ≤ initial_capacity) (hmax : initial_capacity < 2 ^ 63) (_hb : 0 < bucketSize) :
    Nat.Prime (work_init_indexes page_size initial_capacity bucketSize).numBuckets ∧
      1 ≤ (work_init_indexes page_size initial_capacity bucketSize).numBuckets ∧
      initial_capacity.toNat / bucketSize
        ≤ (work_init_indexes page_size initial_capacity bucketSize).numBuckets ∧
      (∀ p, Nat.Prime p → initial_capacity.toNat / bucketSize ≤ p →
        (work_init_indexes page_size initial_capacity bucketSize).numBuckets ≤ p) ∧
      (initial_capacity < bucketSize →
        (work_init_indexes page_size initial_capacity bucketSize).numBuckets = 2) := by
  have hconv : toUnsignedLong initial_capacity = initial_capacity.toNat := by
    unfold toUnsignedLong
    rw [Int.emod_eq_of_lt h0 (by omega)]
  simp only [work_init_indexes, hconv]
  obtain ⟨h1, h2, h3⟩ := get_next_prime_number_spec (initial_capacity.toNat / bucketSize)
  refine ⟨h1, h1.one_lt.le, h2, h3, ?_⟩
  intro hlt
  have hz : initial_capacity.toNat / bucketSize = 0 := by
    apply Nat.div_eq_of_lt
    omega
  rw [hz]
  decide

/-- Witness of C9: a budget of 5 bytes with buckets of 16 bytes. -/
theorem C9_bucket_count_is_next_prime_witness :
    (work_init_indexes 4096 5 16).numBuckets = 2 :=
  (C9_bucket_count_is_next_prime 4096 5 16 (by decide) (by decide) (by decide)).2.2.2.2
    (by decide)

/-! ## The scratch token array -/

theorem splitTokens_length (delims : List Char) (cs : List Char) :
    ∀ cur : List Char, (splitTokens delims cs cur).length
      ≤ (if cur = [] then (cs.length + 1) / 2 else cs.length / 2 + 1) := by
  induction cs with
  | nil =>
    intro cur
    by_cases hc : cur = [] <;> simp [splitTokens, hc]
  | cons c cs ih =>
    intro cur
    have h0 := ih []
    have h1 := ih (cur ++ [c])
    simp only [if_true, List.append_eq_nil, List.cons_ne_self, and_false, if_false] at h0 h1
    unfold splitTokens
    by_cases hd : c ∈ delims
    · by_cases hc : cur = []
      · simp only [hd, hc, if_true, List.length_cons]
        omega
      · simp only [hd, hc, if_true, if_false, List.length_cons]
        omega
    · by_cases hc : cur = []
      · simp only [hd, hc, if_true, if_false, List.length_cons]
        subst hc
        omega
      · simp only [hd, hc, if_false, List.length_cons]
        omega

/-- C10: for a block whose valid length is between `1` and `block_size`, the
number of tokens that splitting its bytes on `" \t\n"` yields is at most
`block_size / 2 + 1`, the number of entries of the scratch token array that
`work_index` allocates; so every index `i < numTokens` is within that array
and the array is not outgrown.  The array is sized from `block_size`, while
the blocks of the queue have capacity `block_size + BLOCK_ADDON_SIZE`; the
sizes are `int`s, with `block_size + BLOCK_ADDON_SIZE` within the range of
`int`. -/
theorem C10_token_count_fits_scratch_array (block_size : Nat) (b : FileDataBlock)
    (tokBlock : CTokBLock) (ht : tokBlock.tokens.length = block_size / 2 + 1)
    (hbs : (block_size : Int) + (BLOCK_ADDON_SIZE : Int) ≤ 2147483647)
    (h1 : 1 ≤ b.length) (h2 : b.length ≤ (block_size : Int)) :
    (getTokens DELIMITERS b tokBlock).numTokens ≤ block_size / 2 + 1 ∧
      (∀ i, i < (getTokens DELIMITERS b tokBlock).numTokens → i < tokBlock.tokens.length) ∧
      (getTokens DELIMITERS b tokBlock).tokens.length = block_size / 2 + 1 ∧
      (∀ (queue_size : Nat) (index : BaseTFIDFIndex) (filename : String)
          (reader : WaveFileReaderDriver),
        (Lane.init queue_size block_size index filename reader).tokBlock.tokens.length
            = block_size / 2 + 1 ∧
          ∀ blk ∈ (Lane.init queue_size block_size index filename reader).queue.empty,
            blk.buffer.length = block_size + BLOCK_ADDON_SIZE) ∧
      blockCapacity block_size = (block_size : Int) + (BLOCK_ADDON_SIZE : Int) := by
  have hlen := splitTokens_length DELIMITERS (b.buffer.take b.length.toNat) []
  simp only [if_true, List.length_take] at hlen
  have hn : (getTokens DELIMITERS b tokBlock).numTokens ≤ block_size / 2 + 1 := by
    simp only [getTokens]
    have : min b.length.toNat b.buffer.length ≤ block_size := by omega
    omega
  have hcap : blockCapacity block_size = (block_size : Int) + (BLOCK_ADDON_SIZE : Int) := by
    unfold blockCapacity toInt32
    have hnn : (0 : Int) ≤ (block_size : Int) + (BLOCK_ADDON_SIZE : Int) := by
      unfold BLOCK_ADDON_SIZE
      omega
    rw [Int.emod_eq_of_lt (by omega) (by omega)]
    omega
  refine ⟨hn, ?_, ?_, ?_, hcap⟩
  · intro i hi
    rw [ht]
    omega
  · simp only [getTokens] at hn ⊢
    rw [List.length_append, List.length_drop, ht]
    omega
  · intro queue_size index filename reader
    refine ⟨by simp [Lane.init, newTokBlock], ?_⟩
    intro blk hblk
    simp only [Lane.init, FileDualQueueMemoryComponent, List.mem_replicate] at hblk
    rw [hblk.2, List.length_replicate, hcap]
    omega

/-- Witness of C10: a block of eight bytes, `"a b c d "`, with `block_size = 8`
and the scratch block as `work_index` allocates it. -/
theorem C10_token_count_fits_scratch_array_witness :
    (getTokens DELIMITERS { buffer := "a b c d ".toList, length := 8, fileIdx := 0 }
      (newTokBlock 8)).numTokens ≤ 8 / 2 + 1 :=
  (C10_token_count_fits_scratch_array 8
    { buffer := "a b c d ".toList, length := 8, fileIdx := 0 } (newTokBlock 8) rfl
    (by decide) (by decide) (by decide)).1

/-- Outside the range of `int` the sum of line 218 wraps: at
`block_size = 2147483647` the capacity passed on is `-2147479553`. -/
theorem blockCapacity_wraps : blockCapacity 2147483647 = -2147479553 := by
  decide

/-- Beyond `block_size` the bound does not hold: with `block_size = 2`, a
block of five valid bytes `"a b c"` (within the capacity
`block_size + BLOCK_ADDON_SIZE`) has three tokens, more than the
`block_size / 2 + 1 = 2` entries of the scratch array. -/
theorem token_count_beyond_block_size :
    (getTokens DELIMITERS { buffer := "a b c".toList, length := 5, fileIdx := 0 }
      (newTokBlock 2)).numTokens = 3 ∧ (newTokBlock 2).tokens.length = 2 := by
  decide

/-! ## Instances on the example lane -/

/-- Witness of C6: the complete run of the example lane. -/
theorem C6_popped_is_initial_segment_of_pushed_witness :
    (lane20.run sched20).popped <+: (lane20.run sched20).pushed :=
  (C6_popped_is_initial_segment_of_pushed lane20 sched20 rfl rfl rfl).2.1

/-- Witness of C4: on the example lane, whose file opens and yields three
non-empty chunks and then end of file, the complete run pushes the three
chunks and one block of length `0`, all with file identifier `0`. -/
theorem C4_file_blocks_pushed_in_order_witness :
    (lane20.run sched20).pushed.map FileDataBlock.content
      = [("AAAAAAAA".toList, 8, 0), ("BBBBBBBB".toList, 8, 0), ("CCCC".toList, 4, 0),
         ([], 0, 0)] := by
  obtain ⟨d, hd, _, h⟩ := (C4_file_blocks_pushed_in_order lane20
    ["AAAAAAAA".toList, "BBBBBBBB".toList, "CCCC".toList] [] rfl rfl rfl (by decide)
    (Or.inl rfl)).1 sched20
  have h1 := (h (by decide)).1
  rw [hd, show lane20.pushed = [] from rfl, List.nil_append, h1]
  decide

end Xsfs
